import Mathlib

/-!
Shallow embedding of `src/ts/rowModels/infinite/infiniteCache.ts` (class
`InfiniteCache`), the windowed block-paginated row cache.  Pure state
passing replaces mutation; row identities are modelled as natural-number
ids paired with their data item; notifications and the shifting algorithm
are instrumented by an event trace carried in the state.
-/

namespace AgInfinite

/-- A row identity: an id unique per created row, plus its backing data item. -/
structure RowNode where
  id : Nat
  data : Nat
deriving DecidableEq, Repr

/-- A block row slot: either a blank placeholder or a live row identity. -/
inductive RowVal where
  | blank : RowVal
  | node : RowNode → RowVal
deriving DecidableEq, Repr

/-- An `InfiniteBlock`: block number, row slots (slot `i` is absolute row
`blockNumber * pageSize + i`), dirty flag and recency stamp. -/
structure Block where
  blockNumber : Nat
  rows : List RowVal
  dirty : Bool
  lastAccessed : Nat
deriving DecidableEq, Repr

/-- Observable events: block visits, shift-source reads, slot writes (both
shift writes and new-item writes), the two notifications, and
load-complete listener invocations. -/
inductive Ev where
  | visit : Nat → Ev
  | read : Nat → Ev
  | write : Nat → Ev
  | modelUpdated : Ev
  | itemsAdded : List RowNode → Ev
  | loadComplete : Nat → Ev
deriving DecidableEq, Repr

/-- The cache state: configuration, block map in insertion order,
row-count estimate, activity flag, clocks for recency stamps and fresh
row ids, registered load-complete listeners and the emitted event trace. -/
structure CacheState where
  pageSize : Nat
  maxBlocksInCache : Option Nat
  blocks : List (Nat × Block)
  virtualRowCount : Nat
  maxRowFound : Bool
  active : Bool
  clock : Nat
  nextId : Nat
  listeners : List Nat
  events : List Ev
deriving DecidableEq, Repr

/-- Append one event to the trace. -/
def emit (st : CacheState) (e : Ev) : CacheState :=
  { st with events := st.events ++ [e] }

/-- Modelled from the spec: `RowNodeCache.getBlock` (superclass of
`InfiniteCache`, not under `src/`) looks a block up by its number. -/
def getBlock (st : CacheState) (b : Nat) : Option Block :=
  (st.blocks.find? (fun e => e.fst == b)).map Prod.snd

/-- Modelled from the spec: `RowNodeCache.setBlock` stores a new block in
the map; map iteration order is insertion order. -/
def setBlock (st : CacheState) (b : Nat) (blk : Block) : CacheState :=
  { st with blocks := st.blocks ++ [(b, blk)] }

/-- Modelled from the spec: `RowNodeCache.removeBlock` deletes the entry
with the given block number from the map. -/
def removeBlock (st : CacheState) (b : Nat) : CacheState :=
  { st with blocks := st.blocks.filter (fun e => e.fst ≠ b) }

/-- Modelled from the spec: in-place mutation of the block object stored
under a block number (the TypeScript code mutates the shared object). -/
def updateBlock (st : CacheState) (bn : Nat) (f : Block → Block) : CacheState :=
  { st with blocks := st.blocks.map (fun e => if e.fst = bn then (e.fst, f e.snd) else e) }

/-- Modelled from the spec: `RowNodeCache.getBlockCount`. -/
def getBlockCount (st : CacheState) : Nat := st.blocks.length

/-- `block.getStartRow()`: `blockNumber * pageSize`. -/
def blockStartRow (st : CacheState) (b : Block) : Nat := b.blockNumber * st.pageSize

/-- `block.getEndRow()`: `startRow + pageSize` (exclusive). -/
def blockEndRow (st : CacheState) (b : Block) : Nat := b.blockNumber * st.pageSize + st.pageSize

/-- Modelled from the spec: `InfiniteBlock.getRow` (not under `src/`)
returns the slot for the absolute row index and bumps the block's
recency stamp. -/
def blockGetRow (st : CacheState) (b : Block) (rowIndex : Nat) : RowVal × CacheState :=
  let v := b.rows.getD (rowIndex - blockStartRow st b) RowVal.blank
  let st1 := updateBlock st b.blockNumber (fun blk => { blk with lastAccessed := st.clock })
  (v, { st1 with clock := st.clock + 1 })

/-- Modelled from the spec: `InfiniteBlock.setRowNode` writes a row
identity directly into a slot, bypassing the load pipeline. -/
def blockSetRow (st : CacheState) (bn rowIndex : Nat) (v : RowVal) : CacheState :=
  updateBlock st bn (fun b => { b with rows := b.rows.set (rowIndex - bn * st.pageSize) v })

/-- Modelled from the spec: `InfiniteBlock.setBlankRowNode` writes a blank
placeholder into a slot. -/
def blockSetBlank (st : CacheState) (bn rowIndex : Nat) : CacheState :=
  blockSetRow st bn rowIndex RowVal.blank

/-- Modelled from the spec: `InfiniteBlock.setDirty` flags the block for
reload on next load pass. -/
def blockSetDirty (st : CacheState) (bn : Nat) : CacheState :=
  updateBlock st bn (fun b => { b with dirty := true })

/-- Modelled from the spec: `InfiniteBlock.setNewData` materializes a
fresh row identity carrying the given data item at the slot. -/
def blockSetNewData (st : CacheState) (bn rowIndex dataItem : Nat) : RowNode × CacheState :=
  let rn : RowNode := { id := st.nextId, data := dataItem }
  (rn, { blockSetRow st bn rowIndex (RowVal.node rn) with nextId := st.nextId + 1 })

/-- `findLeastRecentlyUsedPage` scan (source lines 156-173): fold over the
block map in iteration order, keep the strictly smallest `lastAccessed`,
skipping the excluded (just-created) block. -/
def findLRUAux (ex : Nat) : Option Block → List (Nat × Block) → Option Block
  | lru, [] => lru
  | lru, e :: rest =>
    if e.fst = ex then findLRUAux ex lru rest
    else
      match lru with
      | none => findLRUAux ex (some e.snd) rest
      | some cur =>
        if e.snd.lastAccessed < cur.lastAccessed then findLRUAux ex (some e.snd) rest
        else findLRUAux ex lru rest

/-- `findLeastRecentlyUsedPage` (source lines 156-173); the excluded
just-created page is identified by its block number. -/
def findLeastRecentlyUsedPage (st : CacheState) (excludeNumber : Nat) : Option Block :=
  findLRUAux excludeNumber none st.blocks

/-- `removeBlockFromCache` (source lines 144-154): remove the page from
the block map; deliberately nothing else (the load-complete listener
registration is left untouched). -/
def removeBlockFromCache (st : CacheState) (pageToRemove : Option Block) : CacheState :=
  match pageToRemove with
  | none => st
  | some blk => removeBlock st blk.blockNumber

/-- `createBlock` (source lines 123-142): make the block with all-blank
slots, register its load-complete listener, store it, and if the bound is
set and exceeded evict the least-recently-used other page (once, no loop). -/
def createBlock (st : CacheState) (blockNumber : Nat) : Block × CacheState :=
  let newBlock : Block :=
    { blockNumber := blockNumber, rows := List.replicate st.pageSize RowVal.blank,
      dirty := false, lastAccessed := 0 }
  let st1 := { setBlock st blockNumber newBlock with listeners := st.listeners ++ [blockNumber] }
  let needToPurge : Bool :=
    match st1.maxBlocksInCache with
    | some m => decide (getBlockCount st1 > m)
    | none => false
  let st2 :=
    if needToPurge then
      removeBlockFromCache st1 (findLeastRecentlyUsedPage st1 blockNumber)
    else st1
  (newBlock, st2)

/-- `getRow` (source lines 108-121): compute the owning block number by
integer division, look the block up, create it unless `dontCreatePage`,
and delegate to the block's row accessor. -/
def getRow (st : CacheState) (rowIndex : Nat) (dontCreatePage : Bool) : Option RowVal × CacheState :=
  let blockId := rowIndex / st.pageSize
  match getBlock st blockId with
  | some block =>
    let p := blockGetRow st block rowIndex
    (some p.1, p.2)
  | none =>
    if dontCreatePage then (none, st)
    else
      let c := createBlock st blockId
      let p := blockGetRow c.2 c.1 rowIndex
      (some p.1, p.2)

/-- One iteration of the `moveItemsDown` loop (source lines 41-56) at
absolute position `currentRowIndex`. -/
def moveItemsDownStep (page : Block) (moveFromIndex moveCount : Nat)
    (st : CacheState) (currentRowIndex : Nat) : CacheState :=
  if currentRowIndex < moveFromIndex + moveCount then st
  else
    let indexOfNodeWeWant := currentRowIndex - moveCount
    let p := getRow st indexOfNodeWeWant true
    let st2 := emit p.2 (Ev.read indexOfNodeWeWant)
    match p.1 with
    | some v => emit (blockSetRow st2 page.blockNumber currentRowIndex v) (Ev.write currentRowIndex)
    | none =>
      emit (blockSetDirty (blockSetBlank st2 page.blockNumber currentRowIndex) page.blockNumber)
        (Ev.write currentRowIndex)

/-- The descending index walk `endRow - 1, ..., startRow`. -/
def descIndices (s e : Nat) : List Nat := (List.range' s (e - s)).reverse

/-- `moveItemsDown` (source lines 35-57): walk the block's absolute
positions from its last row down to its first. -/
def moveItemsDown (st : CacheState) (page : Block) (moveFromIndex moveCount : Nat) : CacheState :=
  (descIndices (blockStartRow st page) (blockEndRow st page)).foldl
    (moveItemsDownStep page moveFromIndex moveCount) st

/-- One iteration of the `insertItems` loop (source lines 65-75). -/
def insertItemsStep (bn pageStartRow pageEndRow indexToInsert : Nat) (items : List Nat)
    (acc : List RowNode × CacheState) (index : Nat) : List RowNode × CacheState :=
  let rowIndex := indexToInsert + index
  if pageStartRow ≤ rowIndex ∧ rowIndex < pageEndRow then
    let dataItem := items.getD index 0
    let p := blockSetNewData acc.2 bn rowIndex dataItem
    (acc.1 ++ [p.1], emit p.2 (Ev.write rowIndex))
  else acc

/-- `insertItems` (source lines 59-78): materialize each new item whose
target index falls inside this block's range, collecting the new nodes. -/
def insertItems (st : CacheState) (block : Block) (indexToInsert : Nat) (items : List Nat) :
    List RowNode × CacheState :=
  (List.range items.length).foldl
    (insertItemsStep block.blockNumber (blockStartRow st block) (blockEndRow st block)
      indexToInsert items)
    ([], st)

/-- The body of the `forEachBlockInReverseOrder` callback in
`insertItemsAtIndex` (source lines 84-95). -/
def processBlock (indexToInsert : Nat) (items : List Nat)
    (acc : List RowNode × CacheState) (bn : Nat) : List RowNode × CacheState :=
  match getBlock acc.2 bn with
  | none => acc
  | some block =>
    let st0 := emit acc.2 (Ev.visit bn)
    if blockEndRow st0 block ≤ indexToInsert then (acc.1, st0)
    else
      let st1 := moveItemsDown st0 block indexToInsert items.length
      let p := insertItems st1 block indexToInsert items
      (acc.1 ++ p.1, p.2)

/-- Modelled from the spec: `RowNodeCache.forEachBlockInReverseOrder`
iterates the page ids as numbers in descending order (source comment at
line 81). -/
def sortedPageIdsDesc (st : CacheState) : List Nat :=
  List.insertionSort (fun a b => b ≤ a) (st.blocks.map Prod.fst)

/-- `dispatchModelUpdated` (source lines 175-179): emit a model-updated
notification only while the cache is active. -/
def dispatchModelUpdated (st : CacheState) : CacheState :=
  if st.active then emit st Ev.modelUpdated else st

/-- `insertItemsAtIndex` (source lines 80-103). -/
def insertItemsAtIndex (st : CacheState) (indexToInsert : Nat) (items : List Nat) : CacheState :=
  let p := (sortedPageIdsDesc st).foldl (processBlock indexToInsert items) ([], st)
  let st1 := p.2
  let st2 :=
    if st1.maxRowFound then { st1 with virtualRowCount := st1.virtualRowCount + items.length }
    else st1
  let st3 := dispatchModelUpdated st2
  emit st3 (Ev.itemsAdded p.1)

/-- `purgeCache` (source lines 186-189): evict every resident block, then
notify. -/
def purgeCache (st : CacheState) : CacheState :=
  dispatchModelUpdated (st.blocks.foldl (fun s e => removeBlockFromCache s (some e.snd)) st)

/-- `init` (source lines 28-33): the post-construct hook requests row 0
with block creation allowed. -/
def initCache (st : CacheState) : CacheState :=
  (getRow st 0 false).2

/-- Modelled from the spec: the datasource resolving a block's fetch
invokes the load-complete listener registered for that block number in
`createBlock`, whether or not the block is still in the map. -/
def resolveFetch (st : CacheState) (bn : Nat) : CacheState :=
  if bn ∈ st.listeners then emit st (Ev.loadComplete bn) else st

/-- Entry coherence of the block map: each entry's key is its block
object's number. -/
def EntOk (st : CacheState) : Prop :=
  st.blocks.map (fun e => e.snd.blockNumber) = st.blocks.map Prod.fst

/-- Well-formedness of a reachable cache state: entry coherence plus
unique keys. -/
def WF (st : CacheState) : Prop :=
  EntOk st ∧ (st.blocks.map Prod.fst).Nodup

/-! ### Spec-side trace shape (following the spec's words, for the
refinement claims about `insertItemsAtIndex`) -/

/-- Spec's words: at walk position `r`, positions before `index + items.length`
are untouched; otherwise the source `r - items.length` is read and the
destination `r` is written. -/
def stepShiftEvents (idx cnt r : Nat) : List Ev :=
  if r < idx + cnt then [] else [Ev.read (r - cnt), Ev.write r]

/-- Spec's words: within an affected block the walk runs from
`endRow - 1` down to `startRow`. -/
def shiftEvents (ps idx cnt bn : Nat) : List Ev :=
  (descIndices (bn * ps) (bn * ps + ps)).flatMap (stepShiftEvents idx cnt)

/-- Item offsets whose target index `idx + i` falls inside block `bn`. -/
def insertSel (ps idx bn itemsLen : Nat) : List Nat :=
  (List.range itemsLen).filter (fun i => decide (bn * ps ≤ idx + i) && decide (idx + i < bn * ps + ps))

/-- Spec's words: after shifting, each new item landing in the block is
written at its target index. -/
def blockInsertEvents (ps idx bn itemsLen : Nat) : List Ev :=
  (insertSel ps idx bn itemsLen).map (fun i => Ev.write (idx + i))

/-- Spec's words: a block whose `endRow` is at or before the insertion
index is skipped entirely; otherwise it is shifted and then filled. -/
def blockTrace (ps idx itemsLen bn : Nat) : List Ev :=
  Ev.visit bn ::
    (if bn * ps + ps ≤ idx then []
     else shiftEvents ps idx itemsLen bn ++ blockInsertEvents ps idx bn itemsLen)

/-- Spec's words: resident blocks are visited in descending block-number
order, each contributing its block trace. -/
def specInsertTrace (ps idx itemsLen : Nat) (bns : List Nat) : List Ev :=
  (bns.map (blockTrace ps idx itemsLen)).flatten

/-- Fresh row nodes created for the selected item offsets, ids assigned
sequentially from `n0`. -/
def specNodesAux (items : List Nat) : Nat → List Nat → List RowNode
  | _, [] => []
  | n0, i :: rest => { id := n0, data := items.getD i 0 } :: specNodesAux items (n0 + 1) rest

/-- Spec-side payload: per visited block (descending), the new nodes for
items landing in that block, in item order; ids run sequentially. -/
def specPayloadAux (ps idx : Nat) (items : List Nat) : Nat → List Nat → List RowNode
  | _, [] => []
  | n0, bn :: rest =>
    let sel := if bn * ps + ps ≤ idx then [] else insertSel ps idx bn items.length
    specNodesAux items n0 sel ++ specPayloadAux ps idx items (n0 + sel.length) rest

/-- The events `insertItemsAtIndex` produces from block processing
(visits, shift-source reads, slot writes), as opposed to notifications. -/
def isShiftEv : Ev → Bool
  | Ev.visit _ => true
  | Ev.read _ => true
  | Ev.write _ => true
  | _ => false

/-- The safety relation: a write at `q` followed anywhere later by a read
at `p` must satisfy `p < q` — so no position is read after this same
operation wrote it. -/
def noLateRead (a b : Ev) : Prop :=
  ∀ q p, a = Ev.write q → b = Ev.read p → p < q

/-- The "core" observables untouched by the shifting machinery: used to
show the block keys, counts, flags and configuration are preserved. -/
structure CoreView where
  pageSize : Nat
  maxBlocksInCache : Option Nat
  keys : List Nat
  bnums : List Nat
  virtualRowCount : Nat
  maxRowFound : Bool
  active : Bool
  listeners : List Nat
deriving DecidableEq

/-- Project a state onto its core observables. -/
def Core (st : CacheState) : CoreView :=
  { pageSize := st.pageSize, maxBlocksInCache := st.maxBlocksInCache,
    keys := st.blocks.map Prod.fst, bnums := st.blocks.map (fun e => e.snd.blockNumber),
    virtualRowCount := st.virtualRowCount, maxRowFound := st.maxRowFound,
    active := st.active, listeners := st.listeners }

/-! ### Preservation lemmas -/

theorem core_emit (st : CacheState) (e : Ev) : Core (emit st e) = Core st := rfl

theorem events_emit (st : CacheState) (e : Ev) : (emit st e).events = st.events ++ [e] := rfl

theorem keys_updateBlock (st : CacheState) (bn : Nat) (f : Block → Block) :
    (updateBlock st bn f).blocks.map Prod.fst = st.blocks.map Prod.fst := by
  unfold updateBlock
  simp only [List.map_map]
  apply List.map_congr_left
  intro a _
  by_cases h : a.fst = bn <;> simp [h, Function.comp]

theorem bnums_updateBlock (st : CacheState) (bn : Nat) (f : Block → Block)
    (hf : ∀ b, (f b).blockNumber = b.blockNumber) :
    (updateBlock st bn f).blocks.map (fun e => e.snd.blockNumber)
      = st.blocks.map (fun e => e.snd.blockNumber) := by
  unfold updateBlock
  simp only [List.map_map]
  apply List.map_congr_left
  intro a _
  by_cases h : a.fst = bn <;> simp [h, Function.comp, hf]

theorem core_updateBlock (st : CacheState) (bn : Nat) (f : Block → Block)
    (hf : ∀ b, (f b).blockNumber = b.blockNumber) :
    Core (updateBlock st bn f) = Core st := by
  unfold Core
  rw [keys_updateBlock, bnums_updateBlock st bn f hf]
  rfl

theorem events_updateBlock (st : CacheState) (bn : Nat) (f : Block → Block) :
    (updateBlock st bn f).events = st.events := rfl

theorem core_blockGetRow (st : CacheState) (b : Block) (i : Nat) :
    Core ((blockGetRow st b i).2) = Core st := by
  exact core_updateBlock st b.blockNumber
    (fun blk => { blk with lastAccessed := st.clock }) (fun _ => rfl)

theorem events_blockGetRow (st : CacheState) (b : Block) (i : Nat) :
    ((blockGetRow st b i).2).events = st.events := rfl

theorem nextId_blockGetRow (st : CacheState) (b : Block) (i : Nat) :
    ((blockGetRow st b i).2).nextId = st.nextId := rfl

theorem core_blockSetRow (st : CacheState) (bn i : Nat) (v : RowVal) :
    Core (blockSetRow st bn i v) = Core st :=
  core_updateBlock st bn
    (fun b => { b with rows := b.rows.set (i - bn * st.pageSize) v }) (fun _ => rfl)

theorem core_blockSetDirty (st : CacheState) (bn : Nat) :
    Core (blockSetDirty st bn) = Core st :=
  core_updateBlock st bn (fun b => { b with dirty := true }) (fun _ => rfl)

theorem core_blockSetNewData (st : CacheState) (bn i d : Nat) :
    Core ((blockSetNewData st bn i d).2) = Core st := by
  unfold blockSetNewData
  show Core { blockSetRow st bn i _ with nextId := st.nextId + 1 } = Core st
  have h : Core { blockSetRow st bn i (RowVal.node { id := st.nextId, data := d })
      with nextId := st.nextId + 1 } = Core (blockSetRow st bn i _) := rfl
  rw [h, core_blockSetRow]

theorem core_blockSetBlank (st : CacheState) (bn i : Nat) :
    Core (blockSetBlank st bn i) = Core st :=
  core_blockSetRow st bn i RowVal.blank

theorem emit_nextId (s : CacheState) (e : Ev) : (emit s e).nextId = s.nextId := rfl

theorem blockSetRow_nextId (s : CacheState) (b i : Nat) (v : RowVal) :
    (blockSetRow s b i v).nextId = s.nextId := rfl

theorem blockSetBlank_nextId (s : CacheState) (b i : Nat) :
    (blockSetBlank s b i).nextId = s.nextId := rfl

theorem blockSetDirty_nextId (s : CacheState) (b : Nat) :
    (blockSetDirty s b).nextId = s.nextId := rfl

theorem getRowTrue_state (st : CacheState) (i : Nat) :
    Core ((getRow st i true).2) = Core st ∧ ((getRow st i true).2).events = st.events
      ∧ ((getRow st i true).2).nextId = st.nextId := by
  unfold getRow
  cases h : getBlock st (i / st.pageSize) with
  | none => simp [h]
  | some blk =>
    simp only [h]
    exact ⟨core_blockGetRow st blk i, events_blockGetRow st blk i, nextId_blockGetRow st blk i⟩

theorem core_pageSize {st st' : CacheState} (h : Core st' = Core st) :
    st'.pageSize = st.pageSize := congrArg CoreView.pageSize h

theorem core_keys {st st' : CacheState} (h : Core st' = Core st) :
    st'.blocks.map Prod.fst = st.blocks.map Prod.fst := congrArg CoreView.keys h

theorem core_bnums {st st' : CacheState} (h : Core st' = Core st) :
    st'.blocks.map (fun e => e.snd.blockNumber) = st.blocks.map (fun e => e.snd.blockNumber) :=
  congrArg CoreView.bnums h

theorem core_vrc {st st' : CacheState} (h : Core st' = Core st) :
    st'.virtualRowCount = st.virtualRowCount := congrArg CoreView.virtualRowCount h

theorem core_mrf {st st' : CacheState} (h : Core st' = Core st) :
    st'.maxRowFound = st.maxRowFound := congrArg CoreView.maxRowFound h

theorem core_active {st st' : CacheState} (h : Core st' = Core st) :
    st'.active = st.active := congrArg CoreView.active h

theorem core_listeners {st st' : CacheState} (h : Core st' = Core st) :
    st'.listeners = st.listeners := congrArg CoreView.listeners h

theorem entOk_of_core {st st' : CacheState} (h : Core st' = Core st) (he : EntOk st) :
    EntOk st' := by
  unfold EntOk at *
  rw [core_bnums h, core_keys h, he]

theorem getBlock_mem {st : CacheState} {bn : Nat} {blk : Block}
    (h : getBlock st bn = some blk) : (bn, blk) ∈ st.blocks := by
  unfold getBlock at h
  cases hf : st.blocks.find? (fun e => e.fst == bn) with
  | none => rw [hf] at h; exact absurd h (by simp)
  | some e =>
    rw [hf] at h
    have h1 : e.fst = bn := by
      have := List.find?_some hf
      simpa using this
    have h2 : e ∈ st.blocks := List.mem_of_find?_eq_some hf
    have h3 : e.snd = blk := by simpa using h
    have : e = (bn, blk) := by
      cases e; simp_all
    rw [← this]; exact h2

theorem getBlock_isSome_of_mem {st : CacheState} {bn : Nat}
    (h : bn ∈ st.blocks.map Prod.fst) : ∃ blk, getBlock st bn = some blk := by
  rcases List.mem_map.1 h with ⟨e, he, hfst⟩
  unfold getBlock
  have : (st.blocks.find? (fun x => x.fst == bn)).isSome = true := by
    rw [List.find?_isSome]
    exact ⟨e, he, by simp [hfst]⟩
  cases hf : st.blocks.find? (fun x => x.fst == bn) with
  | none => rw [hf] at this; simp at this
  | some e' => exact ⟨e'.snd, by simp [hf]⟩

theorem blockNumber_of_getBlock {st : CacheState} {bn : Nat} {blk : Block}
    (hent : EntOk st) (h : getBlock st bn = some blk) : blk.blockNumber = bn := by
  have hm := getBlock_mem h
  unfold EntOk at hent
  have := (List.map_eq_map_iff.1 hent) (bn, blk) hm
  simpa using this

/-! ### Trace characterization of `moveItemsDown` -/

theorem moveItemsDownStep_state (page : Block) (idx cnt : Nat) (st : CacheState) (r : Nat) :
    Core (moveItemsDownStep page idx cnt st r) = Core st
      ∧ (moveItemsDownStep page idx cnt st r).events = st.events ++ stepShiftEvents idx cnt r
      ∧ (moveItemsDownStep page idx cnt st r).nextId = st.nextId := by
  unfold moveItemsDownStep stepShiftEvents
  by_cases hc : r < idx + cnt
  · simp [hc]
  · simp only [hc, if_neg, if_false]
    obtain ⟨hcore, hev, hni⟩ := getRowTrue_state st (r - cnt)
    cases hg : (getRow st (r - cnt) true).1 with
    | some v =>
      simp only [hg]
      refine ⟨?_, ?_, ?_⟩
      · rw [core_emit, core_blockSetRow, core_emit, hcore]
      · rw [events_emit]
        show ((blockSetRow (emit (getRow st (r - cnt) true).2 (Ev.read (r - cnt)))
          page.blockNumber r v).events) ++ [Ev.write r] = _
        have : (blockSetRow (emit (getRow st (r - cnt) true).2 (Ev.read (r - cnt)))
            page.blockNumber r v).events
            = (getRow st (r - cnt) true).2.events ++ [Ev.read (r - cnt)] := rfl
        rw [this, hev, List.append_assoc]
        rfl
      · simp only [emit_nextId, blockSetRow_nextId, hni]
    | none =>
      simp only [hg]
      refine ⟨?_, ?_, ?_⟩
      · rw [core_emit, core_blockSetDirty, core_blockSetBlank, core_emit, hcore]
      · rw [events_emit]
        have : (blockSetDirty (blockSetBlank (emit (getRow st (r - cnt) true).2
            (Ev.read (r - cnt))) page.blockNumber r) page.blockNumber).events
            = (getRow st (r - cnt) true).2.events ++ [Ev.read (r - cnt)] := rfl
        rw [this, hev, List.append_assoc]
        rfl
      · simp only [emit_nextId, blockSetDirty_nextId, blockSetBlank_nextId, hni]

theorem moveFold_state (page : Block) (idx cnt : Nat) :
    ∀ (rs : List Nat) (st : CacheState),
      Core (rs.foldl (moveItemsDownStep page idx cnt) st) = Core st
        ∧ (rs.foldl (moveItemsDownStep page idx cnt) st).events
            = st.events ++ rs.flatMap (stepShiftEvents idx cnt)
        ∧ (rs.foldl (moveItemsDownStep page idx cnt) st).nextId = st.nextId := by
  intro rs
  induction rs with
  | nil => intro st; simp
  | cons r rest ih =>
    intro st
    obtain ⟨hc1, he1, hn1⟩ := moveItemsDownStep_state page idx cnt st r
    obtain ⟨hc2, he2, hn2⟩ := ih (moveItemsDownStep page idx cnt st r)
    refine ⟨?_, ?_, ?_⟩
    · rw [List.foldl_cons, hc2, hc1]
    · rw [List.foldl_cons, he2, he1, List.flatMap_cons, List.append_assoc]
    · rw [List.foldl_cons, hn2, hn1]

theorem moveItemsDown_state (st : CacheState) (page : Block) (idx cnt : Nat) :
    Core (moveItemsDown st page idx cnt) = Core st
      ∧ (moveItemsDown st page idx cnt).events
          = st.events ++ shiftEvents st.pageSize idx cnt page.blockNumber
      ∧ (moveItemsDown st page idx cnt).nextId = st.nextId := by
  unfold moveItemsDown shiftEvents blockStartRow blockEndRow
  exact moveFold_state page idx cnt _ st

/-! ### Trace characterization of `insertItems` -/

theorem blockSetNewData_events (st : CacheState) (bn i d : Nat) :
    ((blockSetNewData st bn i d).2).events = st.events := rfl

theorem blockSetNewData_nextId (st : CacheState) (bn i d : Nat) :
    ((blockSetNewData st bn i d).2).nextId = st.nextId + 1 := rfl

theorem blockSetNewData_fst (st : CacheState) (bn i d : Nat) :
    (blockSetNewData st bn i d).1 = { id := st.nextId, data := d } := rfl

theorem specNodesAux_len (items : List Nat) :
    ∀ (sel : List Nat) (n0 : Nat), (specNodesAux items n0 sel).length = sel.length := by
  intro sel
  induction sel with
  | nil => intro n0; rfl
  | cons i rest ih => intro n0; simp [specNodesAux, ih]

theorem insertFold_state (bn ps0 pe0 idx : Nat) (items : List Nat) :
    ∀ (l : List Nat) (acc : List RowNode × CacheState),
      Core (l.foldl (insertItemsStep bn ps0 pe0 idx items) acc).2 = Core acc.2
        ∧ (l.foldl (insertItemsStep bn ps0 pe0 idx items) acc).2.events
            = acc.2.events
              ++ (l.filter (fun i => decide (ps0 ≤ idx + i) && decide (idx + i < pe0))).map
                  (fun i => Ev.write (idx + i))
        ∧ (l.foldl (insertItemsStep bn ps0 pe0 idx items) acc).1
            = acc.1 ++ specNodesAux items acc.2.nextId
                (l.filter (fun i => decide (ps0 ≤ idx + i) && decide (idx + i < pe0)))
        ∧ (l.foldl (insertItemsStep bn ps0 pe0 idx items) acc).2.nextId
            = acc.2.nextId
              + (l.filter (fun i => decide (ps0 ≤ idx + i) && decide (idx + i < pe0))).length := by
  intro l
  induction l with
  | nil => intro acc; simp [specNodesAux]
  | cons i rest ih =>
    intro acc
    by_cases hcond : ps0 ≤ idx + i ∧ idx + i < pe0
    · have hfil : (i :: rest).filter (fun j => decide (ps0 ≤ idx + j) && decide (idx + j < pe0))
          = i :: rest.filter (fun j => decide (ps0 ≤ idx + j) && decide (idx + j < pe0)) := by
        simp [List.filter_cons, hcond.1, hcond.2]
      have hstep : insertItemsStep bn ps0 pe0 idx items acc i
          = (acc.1 ++ [{ id := acc.2.nextId, data := items.getD i 0 }],
              emit (blockSetNewData acc.2 bn (idx + i) (items.getD i 0)).2 (Ev.write (idx + i))) := by
        unfold insertItemsStep
        rw [if_pos hcond]
        rfl
      obtain ⟨hc2, he2, hn2, hi2⟩ := ih (insertItemsStep bn ps0 pe0 idx items acc i)
      rw [List.foldl_cons] at *
      rw [hfil]
      have hev : (insertItemsStep bn ps0 pe0 idx items acc i).2.events
          = acc.2.events ++ [Ev.write (idx + i)] := by
        rw [hstep, events_emit, blockSetNewData_events]
      have hcore : Core (insertItemsStep bn ps0 pe0 idx items acc i).2 = Core acc.2 := by
        rw [hstep, core_emit, core_blockSetNewData]
      have hni : (insertItemsStep bn ps0 pe0 idx items acc i).2.nextId = acc.2.nextId + 1 := by
        rw [hstep, emit_nextId, blockSetNewData_nextId]
      have hnodes : (insertItemsStep bn ps0 pe0 idx items acc i).1
          = acc.1 ++ [{ id := acc.2.nextId, data := items.getD i 0 }] := by rw [hstep]
      refine ⟨by rw [hc2, hcore], ?_, ?_, ?_⟩
      · rw [he2, hev, List.map_cons, List.append_assoc]
        rfl
      · rw [hn2, hnodes, hni, List.append_assoc]
        rfl
      · rw [hi2, hni, List.length_cons]
        omega
    · have hfil : (i :: rest).filter (fun j => decide (ps0 ≤ idx + j) && decide (idx + j < pe0))
          = rest.filter (fun j => decide (ps0 ≤ idx + j) && decide (idx + j < pe0)) := by
        rcases Decidable.not_and_iff_or_not.1 hcond with h | h <;> simp [List.filter_cons, h]
      have hstep : insertItemsStep bn ps0 pe0 idx items acc i = acc := by
        unfold insertItemsStep
        rw [if_neg hcond]
      rw [List.foldl_cons, hfil, hstep]
      exact ih acc

theorem insertItems_state (st : CacheState) (block : Block) (idx : Nat) (items : List Nat) :
    Core (insertItems st block idx items).2 = Core st
      ∧ (insertItems st block idx items).2.events
          = st.events ++ blockInsertEvents st.pageSize idx block.blockNumber items.length
      ∧ (insertItems st block idx items).1
          = specNodesAux items st.nextId (insertSel st.pageSize idx block.blockNumber items.length)
      ∧ (insertItems st block idx items).2.nextId
          = st.nextId + (insertSel st.pageSize idx block.blockNumber items.length).length := by
  have h := insertFold_state block.blockNumber (blockStartRow st block) (blockEndRow st block)
    idx items (List.range items.length) ([], st)
  unfold insertItems blockInsertEvents insertSel blockStartRow blockEndRow
  unfold blockStartRow blockEndRow at h
  exact ⟨h.1, h.2.1, by rw [h.2.2.1]; rfl, h.2.2.2⟩

/-! ### Trace characterization of `processBlock` and `insertItemsAtIndex` -/

theorem processBlock_state (idx : Nat) (items : List Nat) (acc : List RowNode × CacheState)
    (bn : Nat) (blk : Block) (hs : getBlock acc.2 bn = some blk) (hbn : blk.blockNumber = bn) :
    Core (processBlock idx items acc bn).2 = Core acc.2
      ∧ (processBlock idx items acc bn).2.events
          = acc.2.events ++ blockTrace acc.2.pageSize idx items.length bn
      ∧ (processBlock idx items acc bn).1
          = acc.1 ++ specNodesAux items acc.2.nextId
              (if bn * acc.2.pageSize + acc.2.pageSize ≤ idx then []
               else insertSel acc.2.pageSize idx bn items.length)
      ∧ (processBlock idx items acc bn).2.nextId
          = acc.2.nextId + (if bn * acc.2.pageSize + acc.2.pageSize ≤ idx then []
               else insertSel acc.2.pageSize idx bn items.length).length := by
  unfold processBlock
  rw [hs]
  dsimp only
  have hend : blockEndRow (emit acc.2 (Ev.visit bn)) blk
      = bn * acc.2.pageSize + acc.2.pageSize := by
    unfold blockEndRow
    rw [hbn]
    rfl
  by_cases hskip : bn * acc.2.pageSize + acc.2.pageSize ≤ idx
  · rw [hend, if_pos hskip]
    refine ⟨core_emit acc.2 _, ?_, ?_, ?_⟩
    · rw [events_emit]
      unfold blockTrace
      rw [if_pos hskip]
    · rw [if_pos hskip]
      simp [specNodesAux]
    · rw [if_pos hskip, emit_nextId]
      rfl
  · rw [hend, if_neg hskip]
    obtain ⟨mc, me, mn⟩ :=
      moveItemsDown_state (emit acc.2 (Ev.visit bn)) blk idx items.length
    obtain ⟨ic, ie, inodes, ini⟩ :=
      insertItems_state (moveItemsDown (emit acc.2 (Ev.visit bn)) blk idx items.length)
        blk idx items
    have hps1 : (moveItemsDown (emit acc.2 (Ev.visit bn)) blk idx items.length).pageSize
        = acc.2.pageSize := by
      rw [core_pageSize mc]
      rfl
    refine ⟨?_, ?_, ?_, ?_⟩
    · show Core (insertItems _ blk idx items).2 = Core acc.2
      rw [ic, mc, core_emit]
    · show (insertItems _ blk idx items).2.events = _
      rw [ie, me, events_emit, hps1, hbn]
      unfold blockTrace
      rw [if_neg hskip]
      show (acc.2.events ++ [Ev.visit bn]) ++ shiftEvents acc.2.pageSize idx items.length bn
          ++ blockInsertEvents acc.2.pageSize idx bn items.length = _
      rw [List.append_assoc, List.append_assoc]
      rfl
    · show acc.1 ++ (insertItems _ blk idx items).1 = _
      rw [inodes, mn, emit_nextId, hps1, hbn, if_neg hskip]
    · show (insertItems _ blk idx items).2.nextId = _
      rw [ini, mn, emit_nextId, hps1, hbn, if_neg hskip]

theorem processBlock_core (idx : Nat) (items : List Nat) (acc : List RowNode × CacheState)
    (bn : Nat) : Core (processBlock idx items acc bn).2 = Core acc.2 := by
  unfold processBlock
  cases hs : getBlock acc.2 bn with
  | none => rfl
  | some blk =>
    dsimp only
    by_cases hskip : blockEndRow (emit acc.2 (Ev.visit bn)) blk ≤ idx
    · rw [if_pos hskip]
      exact core_emit acc.2 _
    · rw [if_neg hskip]
      obtain ⟨mc, _, _⟩ := moveItemsDown_state (emit acc.2 (Ev.visit bn)) blk idx items.length
      obtain ⟨ic, _, _, _⟩ :=
        insertItems_state (moveItemsDown (emit acc.2 (Ev.visit bn)) blk idx items.length)
          blk idx items
      show Core (insertItems _ blk idx items).2 = Core acc.2
      rw [ic, mc, core_emit]

theorem foldPB_core (idx : Nat) (items : List Nat) :
    ∀ (bns : List Nat) (acc : List RowNode × CacheState),
      Core (bns.foldl (processBlock idx items) acc).2 = Core acc.2 := by
  intro bns
  induction bns with
  | nil => intro acc; rfl
  | cons bn rest ih =>
    intro acc
    rw [List.foldl_cons, ih (processBlock idx items acc bn), processBlock_core]

theorem foldPB_state (idx : Nat) (items : List Nat) :
    ∀ (bns : List Nat) (acc : List RowNode × CacheState),
      EntOk acc.2 → (∀ bn ∈ bns, bn ∈ acc.2.blocks.map Prod.fst) →
      (bns.foldl (processBlock idx items) acc).2.events
          = acc.2.events ++ specInsertTrace acc.2.pageSize idx items.length bns
        ∧ (bns.foldl (processBlock idx items) acc).1
            = acc.1 ++ specPayloadAux acc.2.pageSize idx items acc.2.nextId bns := by
  intro bns
  induction bns with
  | nil => intro acc _ _; simp [specInsertTrace, specPayloadAux]
  | cons bn rest ih =>
    intro acc hent hmem
    obtain ⟨blk, hs⟩ := getBlock_isSome_of_mem (hmem bn (List.mem_cons_self bn rest))
    have hbn := blockNumber_of_getBlock hent hs
    obtain ⟨pc, pe, pn, pni⟩ := processBlock_state idx items acc bn blk hs hbn
    have hent1 : EntOk (processBlock idx items acc bn).2 := entOk_of_core pc hent
    have hmem1 : ∀ b ∈ rest, b ∈ (processBlock idx items acc bn).2.blocks.map Prod.fst := by
      intro b hb
      rw [core_keys pc]
      exact hmem b (List.mem_cons_of_mem bn hb)
    obtain ⟨re, rn⟩ := ih (processBlock idx items acc bn) hent1 hmem1
    have hps : (processBlock idx items acc bn).2.pageSize = acc.2.pageSize := core_pageSize pc
    rw [List.foldl_cons]
    constructor
    · rw [re, pe, hps]
      unfold specInsertTrace
      rw [List.map_cons, List.flatten_cons, List.append_assoc]
    · rw [rn, pn, hps, pni, List.append_assoc]
      show _ = acc.1 ++ specPayloadAux acc.2.pageSize idx items acc.2.nextId (bn :: rest)
      simp only [specPayloadAux]

theorem tailEvents (st1 : CacheState) (len : Nat) (nodes : List RowNode) :
    (emit (dispatchModelUpdated
        (if st1.maxRowFound then { st1 with virtualRowCount := st1.virtualRowCount + len }
         else st1)) (Ev.itemsAdded nodes)).events
      = st1.events ++ (if st1.active then [Ev.modelUpdated] else [])
        ++ [Ev.itemsAdded nodes] := by
  by_cases hm : st1.maxRowFound <;> by_cases ha : st1.active <;>
    simp [dispatchModelUpdated, emit, hm, ha]

theorem tailVrc (st1 : CacheState) (len : Nat) (nodes : List RowNode) :
    (emit (dispatchModelUpdated
        (if st1.maxRowFound then { st1 with virtualRowCount := st1.virtualRowCount + len }
         else st1)) (Ev.itemsAdded nodes)).virtualRowCount
      = (if st1.maxRowFound then st1.virtualRowCount + len else st1.virtualRowCount) := by
  by_cases hm : st1.maxRowFound <;> by_cases ha : st1.active <;>
    simp [dispatchModelUpdated, emit, hm, ha]

theorem insertItemsAtIndex_events (st : CacheState) (idx : Nat) (items : List Nat)
    (hent : EntOk st) :
    (insertItemsAtIndex st idx items).events
      = st.events ++ specInsertTrace st.pageSize idx items.length (sortedPageIdsDesc st)
        ++ (if st.active then [Ev.modelUpdated] else [])
        ++ [Ev.itemsAdded
              (specPayloadAux st.pageSize idx items st.nextId (sortedPageIdsDesc st))] := by
  have hmem : ∀ bn ∈ sortedPageIdsDesc st, bn ∈ st.blocks.map Prod.fst := by
    intro bn hb
    exact (List.perm_insertionSort (fun a b => b ≤ a) (st.blocks.map Prod.fst)).mem_iff.1 hb
  obtain ⟨he, hn⟩ := foldPB_state idx items (sortedPageIdsDesc st) ([], st) hent hmem
  have hcore := foldPB_core idx items (sortedPageIdsDesc st) ([], st)
  have hact : ((sortedPageIdsDesc st).foldl (processBlock idx items) ([], st)).2.active
      = st.active := core_active hcore
  unfold insertItemsAtIndex
  dsimp only
  rw [tailEvents, he, hn, hact]
  simp [List.append_assoc]

/-! ### The read-before-overwrite ordering of the shift trace -/

theorem noLateRead_of_not_write {a b : Ev} (h : ∀ q, a ≠ Ev.write q) : noLateRead a b := by
  intro q p ha _
  exact absurd ha (h q)

theorem noLateRead_of_not_read {a b : Ev} (h : ∀ p, b ≠ Ev.read p) : noLateRead a b := by
  intro q p _ hb
  exact absurd hb (h p)

theorem pairwise_of_no_read :
    ∀ {l : List Ev}, (∀ e ∈ l, ∀ p, e ≠ Ev.read p) → List.Pairwise noLateRead l := by
  intro l
  induction l with
  | nil => intro _; exact List.Pairwise.nil
  | cons a rest ih =>
    intro h
    refine List.Pairwise.cons ?_ (ih (fun e he => h e (List.mem_cons_of_mem a he)))
    intro b hb
    exact noLateRead_of_not_read (h b (List.mem_cons_of_mem a hb))

theorem mem_stepShiftEvents {idx cnt r : Nat} {e : Ev}
    (h : e ∈ stepShiftEvents idx cnt r) :
    (e = Ev.read (r - cnt) ∧ idx + cnt ≤ r) ∨ (e = Ev.write r ∧ idx + cnt ≤ r) := by
  unfold stepShiftEvents at h
  by_cases hc : r < idx + cnt
  · rw [if_pos hc] at h
    exact absurd h (List.not_mem_nil e)
  · rw [if_neg hc] at h
    rcases List.mem_cons.1 h with h1 | h1
    · exact Or.inl ⟨h1, Nat.le_of_not_lt hc⟩
    · rcases List.mem_cons.1 h1 with h2 | h2
      · exact Or.inr ⟨h2, Nat.le_of_not_lt hc⟩
      · exact absurd h2 (List.not_mem_nil e)

theorem mem_descIndices {s n r : Nat} (h : r ∈ descIndices s (s + n)) : s ≤ r ∧ r < s + n := by
  unfold descIndices at h
  rw [List.mem_reverse] at h
  rw [Nat.add_sub_cancel_left] at h
  exact List.mem_range'_1.1 h

theorem mem_shiftEvents {ps idx cnt bn : Nat} {e : Ev} (h : e ∈ shiftEvents ps idx cnt bn) :
    ∃ r, bn * ps ≤ r ∧ r < bn * ps + ps ∧ idx + cnt ≤ r
      ∧ (e = Ev.read (r - cnt) ∨ e = Ev.write r) := by
  unfold shiftEvents at h
  rcases List.mem_flatMap.1 h with ⟨r, hr, he⟩
  obtain ⟨h1, h2⟩ := mem_descIndices hr
  rcases mem_stepShiftEvents he with ⟨he', hc⟩ | ⟨he', hc⟩
  · exact ⟨r, h1, h2, hc, Or.inl he'⟩
  · exact ⟨r, h1, h2, hc, Or.inr he'⟩

theorem mem_blockInsertEvents {ps idx bn len : Nat} {e : Ev}
    (h : e ∈ blockInsertEvents ps idx bn len) :
    ∃ i, e = Ev.write (idx + i) ∧ bn * ps ≤ idx + i ∧ idx + i < bn * ps + ps := by
  unfold blockInsertEvents insertSel at h
  rcases List.mem_map.1 h with ⟨i, hi, he⟩
  rcases List.mem_filter.1 hi with ⟨_, hcond⟩
  simp only [Bool.and_eq_true, decide_eq_true_eq] at hcond
  exact ⟨i, he.symm, hcond.1, hcond.2⟩

theorem blockTrace_write_lb {ps idx len bn : Nat} {e : Ev} (h : e ∈ blockTrace ps idx len bn) :
    ∀ q, e = Ev.write q → bn * ps ≤ q := by
  intro q hq
  unfold blockTrace at h
  rcases List.mem_cons.1 h with h1 | h1
  · rw [h1] at hq; exact absurd hq (by simp)
  · by_cases hg : bn * ps + ps ≤ idx
    · rw [if_pos hg] at h1; exact absurd h1 (List.not_mem_nil e)
    · rw [if_neg hg] at h1
      rcases List.mem_append.1 h1 with h2 | h2
      · rcases mem_shiftEvents h2 with ⟨r, hr1, _, _, he | he⟩
        · rw [he] at hq; exact absurd hq (by simp)
        · rw [he] at hq
          cases hq
          exact hr1
      · rcases mem_blockInsertEvents h2 with ⟨i, he, hi1, _⟩
        rw [he] at hq
        cases hq
        exact hi1

theorem blockTrace_read_ub {ps idx len bn : Nat} {e : Ev} (h : e ∈ blockTrace ps idx len bn) :
    ∀ p, e = Ev.read p → p < bn * ps + ps := by
  intro p hp
  unfold blockTrace at h
  rcases List.mem_cons.1 h with h1 | h1
  · rw [h1] at hp; exact absurd hp (by simp)
  · by_cases hg : bn * ps + ps ≤ idx
    · rw [if_pos hg] at h1; exact absurd h1 (List.not_mem_nil e)
    · rw [if_neg hg] at h1
      rcases List.mem_append.1 h1 with h2 | h2
      · rcases mem_shiftEvents h2 with ⟨r, _, hr2, _, he | he⟩
        · rw [he] at hp
          cases hp
          exact Nat.lt_of_le_of_lt (Nat.sub_le r len) hr2
        · rw [he] at hp; exact absurd hp (by simp)
      · rcases mem_blockInsertEvents h2 with ⟨i, he, _, _⟩
        rw [he] at hp; exact absurd hp (by simp)

theorem pairwise_descIndices (s n : Nat) : List.Pairwise (fun a b => b < a) (descIndices s (s + n)) := by
  unfold descIndices
  rw [Nat.add_sub_cancel_left, List.pairwise_reverse]
  exact List.pairwise_lt_range' s n 1

theorem pairwise_stepShiftEvents (idx cnt r : Nat) :
    List.Pairwise noLateRead (stepShiftEvents idx cnt r) := by
  unfold stepShiftEvents
  by_cases hc : r < idx + cnt
  · rw [if_pos hc]; exact List.Pairwise.nil
  · rw [if_neg hc]
    refine List.Pairwise.cons ?_ (List.pairwise_singleton _ _)
    intro b _
    exact noLateRead_of_not_write (by simp)

theorem pairwise_shiftEvents (ps idx cnt bn : Nat) :
    List.Pairwise noLateRead (shiftEvents ps idx cnt bn) := by
  unfold shiftEvents
  rw [List.flatMap_def, List.pairwise_flatten]
  constructor
  · intro l hl
    rcases List.mem_map.1 hl with ⟨r, _, he⟩
    rw [← he]
    exact pairwise_stepShiftEvents idx cnt r
  · rw [List.pairwise_map]
    refine (pairwise_descIndices (bn * ps) ps).imp ?_
    intro r1 r2 hlt x hx y hy
    rcases mem_stepShiftEvents hx with ⟨hx', _⟩ | ⟨hx', _⟩
    · rw [hx']; exact noLateRead_of_not_write (by simp)
    · rcases mem_stepShiftEvents hy with ⟨hy', _⟩ | ⟨hy', _⟩
      · rw [hx', hy']
        intro q p hq hp
        cases hq
        cases hp
        exact Nat.lt_of_le_of_lt (Nat.sub_le r2 cnt) hlt
      · rw [hy']; exact noLateRead_of_not_read (by simp)

theorem pairwise_blockTrace (ps idx len bn : Nat) :
    List.Pairwise noLateRead (blockTrace ps idx len bn) := by
  unfold blockTrace
  refine List.Pairwise.cons (fun b _ => noLateRead_of_not_write (by simp)) ?_
  by_cases hg : bn * ps + ps ≤ idx
  · rw [if_pos hg]; exact List.Pairwise.nil
  · rw [if_neg hg, List.pairwise_append]
    refine ⟨pairwise_shiftEvents ps idx len bn, ?_, ?_⟩
    · apply pairwise_of_no_read
      intro e he p
      rcases mem_blockInsertEvents he with ⟨i, he', _, _⟩
      rw [he']
      simp
    · intro a _ b hb
      rcases mem_blockInsertEvents hb with ⟨i, hb', _, _⟩
      exact noLateRead_of_not_read (by rw [hb']; simp)

theorem pairwise_specInsertTrace {bns : List Nat} (ps idx len : Nat)
    (hbns : List.Pairwise (fun a b => b < a) bns) :
    List.Pairwise noLateRead (specInsertTrace ps idx len bns) := by
  unfold specInsertTrace
  rw [List.pairwise_flatten]
  constructor
  · intro l hl
    rcases List.mem_map.1 hl with ⟨bn, _, he⟩
    rw [← he]
    exact pairwise_blockTrace ps idx len bn
  · rw [List.pairwise_map]
    refine hbns.imp ?_
    intro bn1 bn2 hlt x hx y hy
    intro q p hq hp
    have hql := blockTrace_write_lb hx q hq
    have hpu := blockTrace_read_ub hy p hp
    have hstep : bn2 * ps + ps ≤ bn1 * ps := by
      have : (bn2 + 1) * ps ≤ bn1 * ps := Nat.mul_le_mul_right ps hlt
      calc bn2 * ps + ps = (bn2 + 1) * ps := by ring
        _ ≤ bn1 * ps := this
    exact Nat.lt_of_lt_of_le hpu (Nat.le_trans hstep hql)

instance : IsTotal Nat (fun a b => b ≤ a) := ⟨fun a b => Nat.le_total b a⟩

instance : IsTrans Nat (fun a b => b ≤ a) := ⟨fun _ _ _ h1 h2 => Nat.le_trans h2 h1⟩

theorem pairwise_gt_sorted (st : CacheState) (h : (st.blocks.map Prod.fst).Nodup) :
    List.Pairwise (fun a b => b < a) (sortedPageIdsDesc st) := by
  have hs := List.sorted_insertionSort (fun a b => b ≤ a) (st.blocks.map Prod.fst)
  have hn : (sortedPageIdsDesc st).Nodup :=
    ((List.perm_insertionSort (fun a b => b ≤ a) (st.blocks.map Prod.fst)).nodup_iff).2 h
  exact (List.Pairwise.and hs hn).imp (fun hab => Nat.lt_of_le_of_ne hab.1 (Ne.symm hab.2))

theorem blockTrace_shiftEv (ps idx len bn : Nat) :
    ∀ e ∈ blockTrace ps idx len bn, isShiftEv e = true := by
  intro e he
  unfold blockTrace at he
  rcases List.mem_cons.1 he with h1 | h1
  · rw [h1]; rfl
  · by_cases hg : bn * ps + ps ≤ idx
    · rw [if_pos hg] at h1; exact absurd h1 (List.not_mem_nil e)
    · rw [if_neg hg] at h1
      rcases List.mem_append.1 h1 with h2 | h2
      · rcases mem_shiftEvents h2 with ⟨r, _, _, _, he' | he'⟩ <;> rw [he'] <;> rfl
      · rcases mem_blockInsertEvents h2 with ⟨i, he', _, _⟩
        rw [he']; rfl

theorem specInsertTrace_filter (ps idx len : Nat) (bns : List Nat) :
    (specInsertTrace ps idx len bns).filter isShiftEv = specInsertTrace ps idx len bns := by
  rw [List.filter_eq_self]
  intro e he
  unfold specInsertTrace at he
  rcases List.mem_flatten.1 he with ⟨l, hl, hel⟩
  rcases List.mem_map.1 hl with ⟨bn, _, hbn⟩
  rw [← hbn] at hel
  exact blockTrace_shiftEv ps idx len bn e hel

/-! ### Claim theorems -/

/-- C1: `insertItemsAtIndex(index, items)` visits resident blocks in
descending block-number order, skips a block whose `endRow ≤ index`,
walks each affected block from `endRow - 1` down to its first row,
reading source `r - items.length` and writing destination `r` for every
`r ≥ index + items.length` — and in the resulting trace every shift
source is read strictly before any position at or above it is written,
so no source is overwritten before it is read. -/
theorem claim_C1 (st : CacheState) (idx : Nat) (items : List Nat) (h : WF st) :
    ((insertItemsAtIndex st idx items).events).filter isShiftEv
        = st.events.filter isShiftEv
          ++ specInsertTrace st.pageSize idx items.length (sortedPageIdsDesc st)
      ∧ List.Pairwise noLateRead
          (specInsertTrace st.pageSize idx items.length (sortedPageIdsDesc st)) := by
  constructor
  · rw [insertItemsAtIndex_events st idx items h.1]
    rw [List.filter_append, List.filter_append, List.filter_append]
    rw [specInsertTrace_filter]
    have h1 : (if st.active then [Ev.modelUpdated] else []).filter isShiftEv = [] := by
      by_cases ha : st.active <;> simp [ha, isShiftEv]
    have h2 : ([Ev.itemsAdded (specPayloadAux st.pageSize idx items st.nextId
        (sortedPageIdsDesc st))]).filter isShiftEv = [] := by simp [isShiftEv]
    rw [h1, h2, List.append_nil, List.append_nil]
  · exact pairwise_specInsertTrace st.pageSize idx items.length (pairwise_gt_sorted st h.2)

/-- C6: after `insertItemsAtIndex`, `virtualRowCount` grows by
`items.length` exactly when `maxRowFound` is true, and is unchanged
otherwise. -/
theorem claim_C6 (st : CacheState) (idx : Nat) (items : List Nat) :
    (insertItemsAtIndex st idx items).virtualRowCount
      = (if st.maxRowFound then st.virtualRowCount + items.length
         else st.virtualRowCount) := by
  have hcore := foldPB_core idx items (sortedPageIdsDesc st) ([], st)
  unfold insertItemsAtIndex
  dsimp only
  rw [tailVrc, core_vrc hcore, core_mrf hcore]

/-- Concrete examples: `pageSize = 2`, rows `r0..r3` resident across
block 0 = `[r0, r1]` and block 1 = `[r2, r3]`, end of dataset known. -/
def exBlock0 : Block :=
  { blockNumber := 0, rows := [RowVal.node { id := 0, data := 10 }, RowVal.node { id := 1, data := 11 }],
    dirty := false, lastAccessed := 0 }

def exBlock1 : Block :=
  { blockNumber := 1, rows := [RowVal.node { id := 2, data := 12 }, RowVal.node { id := 3, data := 13 }],
    dirty := false, lastAccessed := 1 }

def exState : CacheState :=
  { pageSize := 2, maxBlocksInCache := none, blocks := [(0, exBlock0), (1, exBlock1)],
    virtualRowCount := 4, maxRowFound := true, active := true,
    clock := 2, nextId := 4, listeners := [0, 1], events := [] }

/-- A `getRow` pass over indices `0..n-1` (block creation allowed),
returning the observed row values and the final state. -/
def readPass (st : CacheState) (n : Nat) : List (Option RowVal) × CacheState :=
  (List.range n).foldl
    (fun acc i =>
      let p := getRow acc.2 i false
      (acc.1 ++ [p.1], p.2))
    ([], st)

/-- Witness for C1 at the concrete two-block state. -/
theorem claim_C1_witness :
    WF exState
      ∧ (((insertItemsAtIndex exState 1 [99]).events).filter isShiftEv
            = exState.events.filter isShiftEv
              ++ specInsertTrace exState.pageSize 1 [99].length (sortedPageIdsDesc exState)
          ∧ List.Pairwise noLateRead
              (specInsertTrace exState.pageSize 1 [99].length (sortedPageIdsDesc exState))) :=
  ⟨by unfold WF EntOk; exact ⟨by decide, by decide⟩,
    claim_C1 exState 1 [99] (by unfold WF EntOk; exact ⟨by decide, by decide⟩)⟩

/-- C2 counterexample: after `insertItemsAtIndex(1, [x])` on the 4-row,
two-block state, the `getRow` pass over `0..4` returns
`r0, x, r1, r2, blank` — index 4 does *not* return `r3` (its identity,
`id 3`, was overwritten at position 3 and never rewritten at position 4,
because no resident block covers row 4). -/
theorem claim_C2_counterexample :
    (readPass (insertItemsAtIndex exState 1 [99]) 5).1
        = [some (RowVal.node { id := 0, data := 10 }), some (RowVal.node { id := 4, data := 99 }),
           some (RowVal.node { id := 1, data := 11 }), some (RowVal.node { id := 2, data := 12 }),
           some RowVal.blank]
      ∧ ((readPass (insertItemsAtIndex exState 1 [99]) 5).1).getD 4 none
          ≠ some (RowVal.node { id := 3, data := 13 }) := by decide

/-- C2 (amended): the pass over `0..3` returns exactly `r0, x, r1, r2`;
index 4 is served by block 2, which did not exist after the insertion
call and is freshly created by the read itself, yielding a blank slot
(`r3`'s identity is not preserved past the last resident block); and
`virtualRowCount` grows by 1 exactly when the dataset end was known. -/
theorem claim_C2_amended :
    (readPass (insertItemsAtIndex exState 1 [99]) 4).1
        = [some (RowVal.node { id := 0, data := 10 }), some (RowVal.node { id := 4, data := 99 }),
           some (RowVal.node { id := 1, data := 11 }), some (RowVal.node { id := 2, data := 12 })]
      ∧ ((readPass (insertItemsAtIndex exState 1 [99]) 5).1).getD 4 none = some RowVal.blank
      ∧ getBlock (insertItemsAtIndex exState 1 [99]) 2 = none
      ∧ (getBlock (readPass (insertItemsAtIndex exState 1 [99]) 5).2 2).isSome = true
      ∧ (insertItemsAtIndex exState 1 [99]).virtualRowCount = 5
      ∧ (insertItemsAtIndex { exState with maxRowFound := false } 1 [99]).virtualRowCount
          = 4 := by decide

/-- C7 counterexample: inserting two items `[99, 98]` at index 1 over the
two-block state fires items-added with payload ids `4` (data 98, landed
in block 1) then `5` (data 99, landed in block 0): the payload is ordered
by descending block, *not* as the inserted items sequence `[99, 98]`. -/
theorem claim_C7_counterexample :
    (insertItemsAtIndex exState 1 [99, 98]).events
        = [Ev.visit 1, Ev.read 1, Ev.write 3, Ev.write 2, Ev.visit 0, Ev.write 1,
           Ev.modelUpdated,
           Ev.itemsAdded [{ id := 4, data := 98 }, { id := 5, data := 99 }]]
      ∧ ([RowNode.mk 4 98, RowNode.mk 5 99].map RowNode.data) ≠ [99, 98] := by decide

/-- C7 (amended): with the cache active, every `insertItemsAtIndex` call
emits exactly one model-updated notification followed by exactly one
items-added notification whose payload is exactly the newly materialized
row identities (one per item landing in a resident affected block, fresh
sequential ids, no shifted rows and no blanks), collected per visited
block in descending block-number order and, within each block, in the
inserted items' order. -/
theorem claim_C7_amended (st : CacheState) (idx : Nat) (items : List Nat)
    (hent : EntOk st) (ha : st.active = true) :
    (insertItemsAtIndex st idx items).events
      = st.events ++ specInsertTrace st.pageSize idx items.length (sortedPageIdsDesc st)
        ++ [Ev.modelUpdated,
            Ev.itemsAdded
              (specPayloadAux st.pageSize idx items st.nextId (sortedPageIdsDesc st))] := by
  rw [insertItemsAtIndex_events st idx items hent, ha]
  simp

/-- Witness for the amended C7 at the concrete two-block state. -/
theorem claim_C7_amended_witness :
    (EntOk exState ∧ exState.active = true)
      ∧ (insertItemsAtIndex exState 1 [99, 98]).events
          = exState.events
            ++ specInsertTrace exState.pageSize 1 [99, 98].length (sortedPageIdsDesc exState)
            ++ [Ev.modelUpdated,
                Ev.itemsAdded (specPayloadAux exState.pageSize 1 [99, 98] exState.nextId
                  (sortedPageIdsDesc exState))] :=
  ⟨⟨by unfold EntOk; decide, by decide⟩,
    claim_C7_amended exState 1 [99, 98] (by unfold EntOk; decide) (by decide)⟩

/-! ### Lookup lemmas -/

theorem find?_mapUpdate (bn : Nat) (f : Block → Block) :
    ∀ (l : List (Nat × Block)),
      (l.map (fun e => if e.fst = bn then (e.fst, f e.snd) else e)).find?
          (fun e => e.fst == bn)
        = (l.find? (fun e => e.fst == bn)).map (fun e => (e.fst, f e.snd)) := by
  intro l
  induction l with
  | nil => rfl
  | cons e rest ih =>
    by_cases he : e.fst = bn
    · simp [List.find?_cons, he, ih]
    · simp [List.find?_cons, he, ih]

theorem getBlock_updateBlock (st : CacheState) (bn : Nat) (f : Block → Block) :
    getBlock (updateBlock st bn f) bn = (getBlock st bn).map f := by
  unfold getBlock updateBlock
  show ((st.blocks.map fun e => if e.fst = bn then (e.fst, f e.snd) else e).find?
      (fun e => e.fst == bn)).map Prod.snd = _
  rw [find?_mapUpdate]
  cases st.blocks.find? (fun e => e.fst == bn) <;> rfl

theorem getBlock_emit (st : CacheState) (e : Ev) (bn : Nat) :
    getBlock (emit st e) bn = getBlock st bn := rfl

/-- C3: during the shift, the source row is fetched with block creation
disallowed; when the source's block does not exist, `getRow` returns
absence and leaves the state untouched (no block is created), and the
`moveItemsDown` step then writes a blank placeholder at the destination
slot and marks the destination block dirty; the whole step is total, so
no error reaches the caller, and the set of resident blocks is
unchanged. -/
theorem claim_C3 (st : CacheState) (page : Block) (idx cnt r : Nat) (blk : Block)
    (hc : ¬ r < idx + cnt)
    (hsrc : getBlock st ((r - cnt) / st.pageSize) = none)
    (hdst : getBlock st page.blockNumber = some blk)
    (hlen : blk.rows.length = st.pageSize)
    (hlo : page.blockNumber * st.pageSize ≤ r)
    (hhi : r < page.blockNumber * st.pageSize + st.pageSize) :
    getRow st (r - cnt) true = (none, st)
      ∧ (∃ blk', getBlock (moveItemsDownStep page idx cnt st r) page.blockNumber = some blk'
          ∧ blk'.dirty = true
          ∧ blk'.rows.length = st.pageSize
          ∧ blk'.rows[r - page.blockNumber * st.pageSize]? = some RowVal.blank)
      ∧ (moveItemsDownStep page idx cnt st r).blocks.map Prod.fst
          = st.blocks.map Prod.fst := by
  have habs : getRow st (r - cnt) true = (none, st) := by
    unfold getRow
    dsimp only
    rw [hsrc]
    rfl
  refine ⟨habs, ?_, ?_⟩
  · have hstep : moveItemsDownStep page idx cnt st r
        = emit (blockSetDirty (blockSetBlank (emit st (Ev.read (r - cnt)))
            page.blockNumber r) page.blockNumber) (Ev.write r) := by
      unfold moveItemsDownStep
      rw [if_neg hc]
      dsimp only
      rw [habs]
    rw [hstep, getBlock_emit]
    unfold blockSetDirty blockSetBlank blockSetRow
    rw [getBlock_updateBlock, getBlock_updateBlock, getBlock_emit, hdst]
    refine ⟨_, rfl, rfl, ?_, ?_⟩
    · simp [hlen]
    · have hoff : r - page.blockNumber * st.pageSize < blk.rows.length := by
        rw [hlen]
        omega
      exact List.getElem?_set_self hoff
  · have hstep : moveItemsDownStep page idx cnt st r
        = emit (blockSetDirty (blockSetBlank (emit st (Ev.read (r - cnt)))
            page.blockNumber r) page.blockNumber) (Ev.write r) := by
      unfold moveItemsDownStep
      rw [if_neg hc]
      dsimp only
      rw [habs]
    rw [hstep]
    show (blockSetDirty (blockSetBlank (emit st (Ev.read (r - cnt)))
        page.blockNumber r) page.blockNumber).blocks.map Prod.fst = _
    unfold blockSetDirty blockSetBlank blockSetRow
    rw [keys_updateBlock, keys_updateBlock]
    rfl

/-- A one-block state missing block 0: block 1 holds rows `r2, r3`. -/
def exStateMissing : CacheState :=
  { pageSize := 2, maxBlocksInCache := none, blocks := [(1, exBlock1)],
    virtualRowCount := 4, maxRowFound := true, active := true,
    clock := 2, nextId := 4, listeners := [1], events := [] }

/-- Witness for C3: shifting position 2 of block 1 down by 2 reads source
row 0 whose block 0 was never created. -/
theorem claim_C3_witness :
    (¬ 2 < 0 + 2
        ∧ getBlock exStateMissing ((2 - 2) / exStateMissing.pageSize) = none
        ∧ getBlock exStateMissing exBlock1.blockNumber = some exBlock1
        ∧ exBlock1.rows.length = exStateMissing.pageSize
        ∧ exBlock1.blockNumber * exStateMissing.pageSize ≤ 2
        ∧ 2 < exBlock1.blockNumber * exStateMissing.pageSize + exStateMissing.pageSize)
      ∧ (getRow exStateMissing (2 - 2) true = (none, exStateMissing)
          ∧ (∃ blk', getBlock (moveItemsDownStep exBlock1 0 2 exStateMissing 2)
                exBlock1.blockNumber = some blk'
              ∧ blk'.dirty = true
              ∧ blk'.rows.length = exStateMissing.pageSize
              ∧ blk'.rows[2 - exBlock1.blockNumber * exStateMissing.pageSize]?
                  = some RowVal.blank)
          ∧ (moveItemsDownStep exBlock1 0 2 exStateMissing 2).blocks.map Prod.fst
              = exStateMissing.blocks.map Prod.fst) :=
  ⟨⟨by decide, by decide, by decide, by decide, by decide, by decide⟩,
    claim_C3 exStateMissing exBlock1 0 2 2 exBlock1 (by decide) (by decide) (by decide)
      (by decide) (by decide) (by decide)⟩

/-! ### LRU selection characterization -/

theorem entOk_entry {st : CacheState} {n : Nat} {b : Block} (hent : EntOk st)
    (hm : (n, b) ∈ st.blocks) : b.blockNumber = n := by
  unfold EntOk at hent
  have := (List.map_eq_map_iff.1 hent) (n, b) hm
  simpa using this

theorem find?_none_of_getBlock_none {st : CacheState} {bn : Nat}
    (h : getBlock st bn = none) : st.blocks.find? (fun e => e.fst == bn) = none := by
  unfold getBlock at h
  cases hf : st.blocks.find? (fun e => e.fst == bn) with
  | none => rfl
  | some e => rw [hf] at h; simp at h

theorem findLRUAux_cons (ex n0 : Nat) (b0 : Block) (acc : Option Block)
    (rest : List (Nat × Block)) :
    findLRUAux ex acc ((n0, b0) :: rest)
      = (if n0 = ex then findLRUAux ex acc rest
         else
           match acc with
           | none => findLRUAux ex (some b0) rest
           | some cur =>
             if b0.lastAccessed < cur.lastAccessed then findLRUAux ex (some b0) rest
             else findLRUAux ex acc rest) := rfl

theorem findLRUAux_cons_ex {ex n0 : Nat} {b0 : Block} (he : n0 = ex) (acc : Option Block)
    (rest : List (Nat × Block)) :
    findLRUAux ex acc ((n0, b0) :: rest) = findLRUAux ex acc rest := by
  rw [findLRUAux_cons, if_pos he]

theorem findLRUAux_cons_noneAcc {ex n0 : Nat} {b0 : Block} (he : ¬ n0 = ex)
    (rest : List (Nat × Block)) :
    findLRUAux ex none ((n0, b0) :: rest) = findLRUAux ex (some b0) rest := by
  rw [findLRUAux_cons, if_neg he]

theorem findLRUAux_cons_someAcc {ex n0 : Nat} {b0 cur : Block} (he : ¬ n0 = ex)
    (rest : List (Nat × Block)) :
    findLRUAux ex (some cur) ((n0, b0) :: rest)
      = (if b0.lastAccessed < cur.lastAccessed then findLRUAux ex (some b0) rest
         else findLRUAux ex (some cur) rest) := by
  rw [findLRUAux_cons, if_neg he]

theorem findLRUAux_some_spec (ex : Nat) :
    ∀ (l : List (Nat × Block)) (cur r : Block),
      findLRUAux ex (some cur) l = some r →
      (r = cur ∧ ∀ e ∈ l, e.fst ≠ ex → cur.lastAccessed ≤ e.snd.lastAccessed)
      ∨ (∃ pre n post, l = pre ++ (n, r) :: post ∧ n ≠ ex
          ∧ r.lastAccessed < cur.lastAccessed
          ∧ (∀ e ∈ pre, e.fst ≠ ex → r.lastAccessed < e.snd.lastAccessed)
          ∧ (∀ e ∈ post, e.fst ≠ ex → r.lastAccessed ≤ e.snd.lastAccessed)) := by
  intro l
  induction l with
  | nil =>
    intro cur r h
    left
    have h' : some cur = some r := h
    exact ⟨(Option.some.inj h').symm, by simp⟩
  | cons e rest ih =>
    obtain ⟨n0, b0⟩ := e
    intro cur r h
    by_cases he : n0 = ex
    · rw [findLRUAux_cons_ex he] at h
      rcases ih cur r h with ⟨h1, h2⟩ | ⟨pre, n, post, hsplit, hnex, hlt, hpre, hpost⟩
      · left
        refine ⟨h1, ?_⟩
        intro e' he' hne'
        rcases List.mem_cons.1 he' with h3 | h3
        · rw [h3] at hne'
          exact absurd he hne'
        · exact h2 e' h3 hne'
      · right
        refine ⟨(n0, b0) :: pre, n, post, by simp [hsplit], hnex, hlt, ?_, hpost⟩
        intro e' he' hne'
        rcases List.mem_cons.1 he' with h3 | h3
        · rw [h3] at hne'
          exact absurd he hne'
        · exact hpre e' h3 hne'
    · rw [findLRUAux_cons_someAcc he] at h
      by_cases hlt : b0.lastAccessed < cur.lastAccessed
      · rw [if_pos hlt] at h
        rcases ih b0 r h with ⟨h1, h2⟩ | ⟨pre, n, post, hsplit, hnex, hlt2, hpre, hpost⟩
        · right
          refine ⟨[], n0, rest, by simp [h1], he, ?_, by simp, ?_⟩
          · rw [h1]; exact hlt
          · intro e' he' hne'
            rw [h1]
            exact h2 e' he' hne'
        · right
          refine ⟨(n0, b0) :: pre, n, post, by simp [hsplit], hnex,
            Nat.lt_trans hlt2 hlt, ?_, hpost⟩
          intro e' he' hne'
          rcases List.mem_cons.1 he' with h3 | h3
          · rw [h3]
            exact hlt2
          · exact hpre e' h3 hne'
      · rw [if_neg hlt] at h
        rcases ih cur r h with ⟨h1, h2⟩ | ⟨pre, n, post, hsplit, hnex, hlt2, hpre, hpost⟩
        · left
          refine ⟨h1, ?_⟩
          intro e' he' hne'
          rcases List.mem_cons.1 he' with h3 | h3
          · rw [h3]
            exact Nat.le_of_not_lt hlt
          · exact h2 e' h3 hne'
        · right
          refine ⟨(n0, b0) :: pre, n, post, by simp [hsplit], hnex, hlt2, ?_, hpost⟩
          intro e' he' hne'
          rcases List.mem_cons.1 he' with h3 | h3
          · rw [h3]
            exact Nat.lt_of_lt_of_le hlt2 (Nat.le_of_not_lt hlt)
          · exact hpre e' h3 hne'

theorem findLRUAux_none_spec (ex : Nat) :
    ∀ (l : List (Nat × Block)) (r : Block),
      findLRUAux ex none l = some r →
      ∃ pre n post, l = pre ++ (n, r) :: post ∧ n ≠ ex
        ∧ (∀ e ∈ pre, e.fst ≠ ex → r.lastAccessed < e.snd.lastAccessed)
        ∧ (∀ e ∈ post, e.fst ≠ ex → r.lastAccessed ≤ e.snd.lastAccessed) := by
  intro l
  induction l with
  | nil =>
    intro r h
    simp [findLRUAux] at h
  | cons e rest ih =>
    obtain ⟨n0, b0⟩ := e
    intro r h
    by_cases he : n0 = ex
    · rw [findLRUAux_cons_ex he] at h
      rcases ih r h with ⟨pre, n, post, hsplit, hnex, hpre, hpost⟩
      refine ⟨(n0, b0) :: pre, n, post, by simp [hsplit], hnex, ?_, hpost⟩
      intro e' he' hne'
      rcases List.mem_cons.1 he' with h3 | h3
      · rw [h3] at hne'
        exact absurd he hne'
      · exact hpre e' h3 hne'
    · rw [findLRUAux_cons_noneAcc he] at h
      rcases findLRUAux_some_spec ex rest b0 r h with ⟨h1, h2⟩
        | ⟨pre, n, post, hsplit, hnex, hlt2, hpre, hpost⟩
      · refine ⟨[], n0, rest, by simp [h1], he, by simp, ?_⟩
        intro e' he' hne'
        rw [h1]
        exact h2 e' he' hne'
      · refine ⟨(n0, b0) :: pre, n, post, by simp [hsplit], hnex, ?_, hpost⟩
        intro e' he' hne'
        rcases List.mem_cons.1 he' with h3 | h3
        · rw [h3]
          exact hlt2
        · exact hpre e' h3 hne'

theorem findLRUAux_isSome (ex : Nat) :
    ∀ (l : List (Nat × Block)) (acc : Option Block),
      ((∃ e ∈ l, e.fst ≠ ex) ∨ acc.isSome = true) → (findLRUAux ex acc l).isSome = true := by
  intro l
  induction l with
  | nil =>
    intro acc h
    rcases h with ⟨e, he, _⟩ | h
    · exact absurd he (List.not_mem_nil e)
    · exact h
  | cons e rest ih =>
    obtain ⟨n0, b0⟩ := e
    intro acc h
    by_cases he : n0 = ex
    · rw [findLRUAux_cons_ex he]
      apply ih
      rcases h with ⟨e', he', hne'⟩ | h
      · rcases List.mem_cons.1 he' with h3 | h3
        · rw [h3] at hne'
          exact absurd he hne'
        · exact Or.inl ⟨e', h3, hne'⟩
      · exact Or.inr h
    · cases acc with
      | none =>
        rw [findLRUAux_cons_noneAcc he]
        exact ih (some b0) (Or.inr rfl)
      | some cur =>
        rw [findLRUAux_cons_someAcc he]
        by_cases hlt : b0.lastAccessed < cur.lastAccessed
        · rw [if_pos hlt]
          exact ih (some b0) (Or.inr rfl)
        · rw [if_neg hlt]
          exact ih (some cur) (Or.inr rfl)

theorem findLRUAux_append_ex (ex : Nat) (b : Block) :
    ∀ (l : List (Nat × Block)) (acc : Option Block),
      findLRUAux ex acc (l ++ [(ex, b)]) = findLRUAux ex acc l := by
  intro l
  induction l with
  | nil =>
    intro acc
    show findLRUAux ex acc [(ex, b)] = acc
    rw [findLRUAux_cons_ex rfl]
    rfl
  | cons e rest ih =>
    obtain ⟨n0, b0⟩ := e
    intro acc
    show findLRUAux ex acc ((n0, b0) :: (rest ++ [(ex, b)])) = _
    by_cases he : n0 = ex
    · rw [findLRUAux_cons_ex he, findLRUAux_cons_ex he, ih]
    · cases acc with
      | none =>
        rw [findLRUAux_cons_noneAcc he, findLRUAux_cons_noneAcc he, ih]
      | some cur =>
        rw [findLRUAux_cons_someAcc he, findLRUAux_cons_someAcc he]
        by_cases hlt : b0.lastAccessed < cur.lastAccessed
        · rw [if_pos hlt, if_pos hlt, ih]
        · rw [if_neg hlt, if_neg hlt, ih]

/-- The block object `createBlock` constructs. -/
def newBlockFor (st : CacheState) (bn : Nat) : Block :=
  { blockNumber := bn, rows := List.replicate st.pageSize RowVal.blank,
    dirty := false, lastAccessed := 0 }

/-- The intermediate state in `createBlock` after storing the new block
and registering its listener. -/
def st1For (st : CacheState) (bn : Nat) : CacheState :=
  { setBlock st bn (newBlockFor st bn) with listeners := st.listeners ++ [bn] }

theorem createBlock_fst (st : CacheState) (bn : Nat) :
    (createBlock st bn).1 = newBlockFor st bn := rfl

theorem st1For_blocks (st : CacheState) (bn : Nat) :
    (st1For st bn).blocks = st.blocks ++ [(bn, newBlockFor st bn)] := rfl

theorem st1For_count (st : CacheState) (bn : Nat) :
    getBlockCount (st1For st bn) = st.blocks.length + 1 := by
  unfold getBlockCount st1For setBlock
  simp

theorem createBlock_eq (st : CacheState) (bn : Nat) :
    createBlock st bn
      = (newBlockFor st bn,
          if (match st.maxBlocksInCache with
              | some m => decide (getBlockCount (st1For st bn) > m)
              | none => false) = true
          then removeBlockFromCache (st1For st bn)
                (findLeastRecentlyUsedPage (st1For st bn) bn)
          else st1For st bn) := rfl

theorem createBlock_eq_purge (st : CacheState) (bn m : Nat)
    (hmax : st.maxBlocksInCache = some m) (hover : m < st.blocks.length + 1) :
    (createBlock st bn).2
      = removeBlockFromCache (st1For st bn)
          (findLeastRecentlyUsedPage (st1For st bn) bn) := by
  rw [createBlock_eq, hmax]
  dsimp only
  rw [decide_eq_true (show getBlockCount (st1For st bn) > m by rw [st1For_count]; omega)]
  simp

theorem createBlock_eq_noPurge (st : CacheState) (bn : Nat)
    (h : st.maxBlocksInCache = none
      ∨ ∃ m, st.maxBlocksInCache = some m ∧ st.blocks.length + 1 ≤ m) :
    (createBlock st bn).2 = st1For st bn := by
  rw [createBlock_eq]
  rcases h with h | ⟨m, hmax, hle⟩
  · rw [h]
    simp
  · rw [hmax]
    dsimp only
    rw [decide_eq_false (show ¬ getBlockCount (st1For st bn) > m by rw [st1For_count]; omega)]
    simp

/-- C4: when a creation pushes the resident count above
`maxBlocksInCache`, exactly one block is evicted — the one whose entry
attains the minimal `lastAccessed` among all resident blocks (the
just-created block being excluded automatically, as its key is skipped),
with the first-seen entry winning ties in map order — and eviction is
not retried: the resulting count equals the pre-creation count, which
may still exceed the bound. -/
theorem claim_C4 (st : CacheState) (bn m : Nat) (hWF : WF st)
    (hnew : getBlock st bn = none) (hmax : st.maxBlocksInCache = some m)
    (hover : m ≤ st.blocks.length) (hne : st.blocks ≠ []) :
    ∃ r n pre post,
      st.blocks = pre ++ (n, r) :: post
        ∧ (∀ e ∈ pre, r.lastAccessed < e.snd.lastAccessed)
        ∧ (∀ e ∈ st.blocks, r.lastAccessed ≤ e.snd.lastAccessed)
        ∧ (createBlock st bn).2.blocks = (pre ++ post) ++ [(bn, (createBlock st bn).1)]
        ∧ (createBlock st bn).2.blocks.length = st.blocks.length := by
  have hkeys : ∀ e ∈ st.blocks, e.fst ≠ bn := by
    intro e he
    have := List.find?_eq_none.1 (find?_none_of_getBlock_none hnew) e he
    simpa using this
  have hlru : findLeastRecentlyUsedPage (st1For st bn) bn
      = findLRUAux bn none st.blocks := by
    unfold findLeastRecentlyUsedPage
    rw [st1For_blocks, findLRUAux_append_ex]
  have hsome : (findLRUAux bn none st.blocks).isSome = true := by
    apply findLRUAux_isSome
    left
    rcases List.exists_mem_of_ne_nil st.blocks hne with ⟨e, he⟩
    exact ⟨e, he, hkeys e he⟩
  obtain ⟨r, hr⟩ := Option.isSome_iff_exists.1 hsome
  obtain ⟨pre, n, post, hsplit, hnex, hpre, hpost⟩ := findLRUAux_none_spec bn st.blocks r hr
  have hmemnr : (n, r) ∈ st.blocks := by
    rw [hsplit]
    exact List.mem_append_right pre (List.mem_cons_self _ _)
  have hrbn : r.blockNumber = n := entOk_entry hWF.1 hmemnr
  have hpre' : ∀ e ∈ pre, r.lastAccessed < e.snd.lastAccessed := by
    intro e he
    exact hpre e he (hkeys e (by rw [hsplit]; exact List.mem_append_left _ he))
  have hpost' : ∀ e ∈ post, r.lastAccessed ≤ e.snd.lastAccessed := by
    intro e he
    exact hpost e he (hkeys e
      (by rw [hsplit]; exact List.mem_append_right pre (List.mem_cons_of_mem _ he)))
  have hmin : ∀ e ∈ st.blocks, r.lastAccessed ≤ e.snd.lastAccessed := by
    intro e he
    rw [hsplit] at he
    rcases List.mem_append.1 he with h1 | h1
    · exact Nat.le_of_lt (hpre' e h1)
    · rcases List.mem_cons.1 h1 with h2 | h2
      · rw [h2]
      · exact hpost' e h2
  -- keys around the evicted entry
  have hnodup := hWF.2
  have hnodup' : n ∉ pre.map Prod.fst ∧ n ∉ post.map Prod.fst := by
    rw [hsplit] at hnodup
    simp only [List.map_append, List.map_cons] at hnodup
    rw [List.nodup_middle, List.nodup_cons] at hnodup
    have := hnodup.1
    simp only [List.mem_append] at this
    exact ⟨fun hc => this (Or.inl hc), fun hc => this (Or.inr hc)⟩
  have hnbn : n ≠ bn := hkeys (n, r) hmemnr
  have hblocks : (createBlock st bn).2.blocks
      = (pre ++ post) ++ [(bn, (createBlock st bn).1)] := by
    rw [createBlock_eq_purge st bn m hmax (by omega), hlru, hr]
    unfold removeBlockFromCache removeBlock
    show ((st1For st bn).blocks.filter (fun e => e.fst ≠ r.blockNumber)) = _
    rw [st1For_blocks, hrbn, List.filter_append, hsplit, List.filter_append,
      List.filter_cons]
    have hppre : pre.filter (fun e => decide (e.fst ≠ n)) = pre := by
      rw [List.filter_eq_self]
      intro e he
      have : e.fst ≠ n := fun hc => hnodup'.1 (hc ▸ List.mem_map_of_mem Prod.fst he)
      simpa using this
    have hppost : post.filter (fun e => decide (e.fst ≠ n)) = post := by
      rw [List.filter_eq_self]
      intro e he
      have : e.fst ≠ n := fun hc => hnodup'.2 (hc ▸ List.mem_map_of_mem Prod.fst he)
      simpa using this
    have hhead : (decide ((n, r).fst ≠ n)) = false := by simp
    rw [hhead]
    simp only [if_false, Bool.false_eq_true]
    have hlast : ([(bn, newBlockFor st bn)].filter (fun e => decide (e.fst ≠ n)))
        = [(bn, newBlockFor st bn)] := by
      rw [List.filter_eq_self]
      intro e he
      rcases List.mem_singleton.1 he with rfl
      simpa using (Ne.symm hnbn)
    rw [hppre, hppost, hlast, createBlock_fst]
  refine ⟨r, n, pre, post, hsplit, hpre', hmin, hblocks, ?_⟩
  rw [hblocks, hsplit]
  simp

/-- Three resident blocks with a recency tie between blocks 1 and 2;
capacity bound 2. -/
def exStateLRU : CacheState :=
  { pageSize := 2, maxBlocksInCache := some 2,
    blocks := [(0, { blockNumber := 0, rows := [], dirty := false, lastAccessed := 5 }),
               (1, { blockNumber := 1, rows := [], dirty := false, lastAccessed := 3 }),
               (2, { blockNumber := 2, rows := [], dirty := false, lastAccessed := 3 })],
    virtualRowCount := 6, maxRowFound := false, active := true,
    clock := 6, nextId := 6, listeners := [0, 1, 2], events := [] }

/-- Witness for C4 at a state with a recency tie (blocks 1 and 2 share
the minimal stamp; the first-seen, block 1, must be the evicted one). -/
theorem claim_C4_witness :
    (WF exStateLRU ∧ getBlock exStateLRU 3 = none
        ∧ exStateLRU.maxBlocksInCache = some 2 ∧ 2 ≤ exStateLRU.blocks.length
        ∧ exStateLRU.blocks ≠ [])
      ∧ (∃ r n pre post,
          exStateLRU.blocks = pre ++ (n, r) :: post
            ∧ (∀ e ∈ pre, r.lastAccessed < e.snd.lastAccessed)
            ∧ (∀ e ∈ exStateLRU.blocks, r.lastAccessed ≤ e.snd.lastAccessed)
            ∧ (createBlock exStateLRU 3).2.blocks
                = (pre ++ post) ++ [(3, (createBlock exStateLRU 3).1)]
            ∧ (createBlock exStateLRU 3).2.blocks.length = exStateLRU.blocks.length) :=
  ⟨⟨by unfold WF EntOk; exact ⟨by decide, by decide⟩, by decide, by decide, by decide,
      by decide⟩,
    claim_C4 exStateLRU 3 2 (by unfold WF EntOk; exact ⟨by decide, by decide⟩) (by decide)
      (by decide) (by decide) (by decide)⟩

/-! ### Eviction has no side effect beyond the map (C5) -/

theorem removeBlockFromCache_listeners (s : CacheState) (o : Option Block) :
    (removeBlockFromCache s o).listeners = s.listeners := by
  cases o <;> rfl

theorem removeBlockFromCache_events (s : CacheState) (o : Option Block) :
    (removeBlockFromCache s o).events = s.events := by
  cases o <;> rfl

theorem removeBlockFromCache_fields (s : CacheState) (o : Option Block) :
    (removeBlockFromCache s o).pageSize = s.pageSize
      ∧ (removeBlockFromCache s o).maxBlocksInCache = s.maxBlocksInCache
      ∧ (removeBlockFromCache s o).virtualRowCount = s.virtualRowCount
      ∧ (removeBlockFromCache s o).maxRowFound = s.maxRowFound
      ∧ (removeBlockFromCache s o).active = s.active
      ∧ (removeBlockFromCache s o).clock = s.clock
      ∧ (removeBlockFromCache s o).nextId = s.nextId := by
  cases o <;> exact ⟨rfl, rfl, rfl, rfl, rfl, rfl, rfl⟩

/-- C5: evicting a block only removes its entry from the block map —
listener registrations, notifications and every other state component
are untouched; in particular the registration made at creation survives,
so resolving the evicted block's fetch still fires its load-complete
listener exactly once (one event appended). -/
theorem claim_C5 (st : CacheState) (blk : Block)
    (hreg : blk.blockNumber ∈ st.listeners) :
    (removeBlockFromCache st (some blk)).blocks
        = st.blocks.filter (fun e => e.fst ≠ blk.blockNumber)
      ∧ (removeBlockFromCache st (some blk)).listeners = st.listeners
      ∧ (removeBlockFromCache st (some blk)).events = st.events
      ∧ (removeBlockFromCache st (some blk)).virtualRowCount = st.virtualRowCount
      ∧ (removeBlockFromCache st (some blk)).maxRowFound = st.maxRowFound
      ∧ (removeBlockFromCache st (some blk)).active = st.active
      ∧ (removeBlockFromCache st (some blk)).pageSize = st.pageSize
      ∧ (removeBlockFromCache st (some blk)).maxBlocksInCache = st.maxBlocksInCache
      ∧ (removeBlockFromCache st (some blk)).nextId = st.nextId
      ∧ (removeBlockFromCache st (some blk)).clock = st.clock
      ∧ getBlock (removeBlockFromCache st (some blk)) blk.blockNumber = none
      ∧ resolveFetch (removeBlockFromCache st (some blk)) blk.blockNumber
          = emit (removeBlockFromCache st (some blk)) (Ev.loadComplete blk.blockNumber)
      ∧ (∀ b2, (createBlock st b2).2.listeners = st.listeners ++ [b2]) := by
  refine ⟨rfl, rfl, rfl, rfl, rfl, rfl, rfl, rfl, rfl, rfl, ?_, ?_, ?_⟩
  · unfold removeBlockFromCache removeBlock getBlock
    have : (st.blocks.filter (fun e => e.fst ≠ blk.blockNumber)).find?
        (fun e => e.fst == blk.blockNumber) = none := by
      rw [List.find?_eq_none]
      intro e he
      have := (List.mem_filter.1 he).2
      simp only [decide_eq_true_eq] at this
      simpa using this
    rw [this]
    rfl
  · unfold resolveFetch
    rw [removeBlockFromCache_listeners, if_pos hreg]
  · intro b2
    rw [createBlock_eq]
    cases hm : st.maxBlocksInCache with
    | none => rfl
    | some m =>
      dsimp only
      by_cases hc : getBlockCount (st1For st b2) > m
      · rw [decide_eq_true hc]
        show (removeBlockFromCache (st1For st b2) _).listeners = _
        rw [removeBlockFromCache_listeners]
        rfl
      · rw [decide_eq_false hc]
        rfl

/-- Witness for C5: evicting resident block 1 of the two-block state. -/
theorem claim_C5_witness :
    exBlock1.blockNumber ∈ exState.listeners
      ∧ ((removeBlockFromCache exState (some exBlock1)).blocks
            = exState.blocks.filter (fun e => e.fst ≠ exBlock1.blockNumber)
          ∧ (removeBlockFromCache exState (some exBlock1)).listeners = exState.listeners
          ∧ (removeBlockFromCache exState (some exBlock1)).events = exState.events
          ∧ (removeBlockFromCache exState (some exBlock1)).virtualRowCount
              = exState.virtualRowCount
          ∧ (removeBlockFromCache exState (some exBlock1)).maxRowFound = exState.maxRowFound
          ∧ (removeBlockFromCache exState (some exBlock1)).active = exState.active
          ∧ (removeBlockFromCache exState (some exBlock1)).pageSize = exState.pageSize
          ∧ (removeBlockFromCache exState (some exBlock1)).maxBlocksInCache
              = exState.maxBlocksInCache
          ∧ (removeBlockFromCache exState (some exBlock1)).nextId = exState.nextId
          ∧ (removeBlockFromCache exState (some exBlock1)).clock = exState.clock
          ∧ getBlock (removeBlockFromCache exState (some exBlock1)) exBlock1.blockNumber
              = none
          ∧ resolveFetch (removeBlockFromCache exState (some exBlock1)) exBlock1.blockNumber
              = emit (removeBlockFromCache exState (some exBlock1))
                  (Ev.loadComplete exBlock1.blockNumber)
          ∧ (∀ b2, (createBlock exState b2).2.listeners = exState.listeners ++ [b2])) :=
  ⟨by decide, claim_C5 exState exBlock1 (by decide)⟩

/-! ### Creation always leaves the new block resident -/

theorem find?_key_append_single {l : List (Nat × Block)} {bn : Nat}
    (h : ∀ e ∈ l, e.fst ≠ bn) (nb : Block) :
    (l ++ [(bn, nb)]).find? (fun e => e.fst == bn) = some (bn, nb) := by
  rw [List.find?_append]
  have hnone : l.find? (fun e => e.fst == bn) = none :=
    List.find?_eq_none.2 (fun e he => by simpa using h e he)
  rw [hnone]
  simp [List.find?]

theorem getBlock_st1For (st : CacheState) (bn : Nat) (hnone : getBlock st bn = none) :
    getBlock (st1For st bn) bn = some (newBlockFor st bn) := by
  unfold getBlock
  rw [st1For_blocks]
  have hkeys : ∀ e ∈ st.blocks, e.fst ≠ bn := by
    intro e he
    have := List.find?_eq_none.1 (find?_none_of_getBlock_none hnone) e he
    simpa using this
  rw [find?_key_append_single hkeys]
  rfl

theorem createBlock_pageSize (st : CacheState) (bn : Nat) :
    (createBlock st bn).2.pageSize = st.pageSize := by
  rw [createBlock_eq]
  cases hm : st.maxBlocksInCache with
  | none => rfl
  | some m =>
    dsimp only
    by_cases hc : getBlockCount (st1For st bn) > m
    · rw [decide_eq_true hc]
      show (removeBlockFromCache (st1For st bn) _).pageSize = _
      rw [(removeBlockFromCache_fields (st1For st bn) _).1]
      rfl
    · rw [decide_eq_false hc]
      rfl

theorem getBlock_createBlock (st : CacheState) (bn : Nat) (hent : EntOk st)
    (hnone : getBlock st bn = none) :
    getBlock (createBlock st bn).2 bn = some (newBlockFor st bn) := by
  have hkeys : ∀ e ∈ st.blocks, e.fst ≠ bn := by
    intro e he
    have := List.find?_eq_none.1 (find?_none_of_getBlock_none hnone) e he
    simpa using this
  rw [createBlock_eq]
  cases hm : st.maxBlocksInCache with
  | none => exact getBlock_st1For st bn hnone
  | some m =>
    dsimp only
    by_cases hc : getBlockCount (st1For st bn) > m
    · rw [decide_eq_true hc]
      show getBlock (removeBlockFromCache (st1For st bn)
        (findLeastRecentlyUsedPage (st1For st bn) bn)) bn = _
      have hlru : findLeastRecentlyUsedPage (st1For st bn) bn
          = findLRUAux bn none st.blocks := by
        unfold findLeastRecentlyUsedPage
        rw [st1For_blocks, findLRUAux_append_ex]
      rw [hlru]
      cases hr : findLRUAux bn none st.blocks with
      | none => exact getBlock_st1For st bn hnone
      | some r =>
        obtain ⟨pre, n, post, hsplit, hnex, _, _⟩ := findLRUAux_none_spec bn st.blocks r hr
        have hmemnr : (n, r) ∈ st.blocks := by
          rw [hsplit]
          exact List.mem_append_right pre (List.mem_cons_self _ _)
        have hrbn : r.blockNumber = n := entOk_entry hent hmemnr
        unfold removeBlockFromCache removeBlock getBlock
        dsimp only
        rw [st1For_blocks, hrbn, List.filter_append]
        have hlast : ([(bn, newBlockFor st bn)].filter (fun e => decide (e.fst ≠ n)))
            = [(bn, newBlockFor st bn)] := by
          rw [List.filter_eq_self]
          intro e he
          rcases List.mem_singleton.1 he with rfl
          simpa using (Ne.symm hnex)
        rw [hlast]
        have hkeys' : ∀ e ∈ st.blocks.filter (fun e => decide (e.fst ≠ n)), e.fst ≠ bn := by
          intro e he
          exact hkeys e (List.mem_of_mem_filter he)
        rw [find?_key_append_single hkeys']
        rfl
    · rw [decide_eq_false hc]
      exact getBlock_st1For st bn hnone

theorem getD_replicate_blank (n i : Nat) :
    (List.replicate n RowVal.blank).getD i RowVal.blank = RowVal.blank := by
  unfold List.getD
  by_cases h : i < n
  · simp [List.getElem?_replicate, h]
  · simp [List.getElem?_replicate, h]

/-- C8: `getRow(i)` (creation allowed) is served by the block numbered
`⌊i / pageSize⌋`: after the call that block is resident, its number is
`i / pageSize`, its half-open row range contains `i`, and the returned
value is that block's slot at offset `i - startRow`. -/
theorem claim_C8 (st : CacheState) (i : Nat) (hent : EntOk st) (hps : 0 < st.pageSize) :
    ∃ blk, getBlock (getRow st i false).2 (i / st.pageSize) = some blk
      ∧ blk.blockNumber = i / st.pageSize
      ∧ blk.blockNumber * st.pageSize ≤ i
      ∧ i < blk.blockNumber * st.pageSize + st.pageSize
      ∧ (getRow st i false).1
          = some (blk.rows.getD (i - blk.blockNumber * st.pageSize) RowVal.blank) := by
  have hdivle : (i / st.pageSize) * st.pageSize ≤ i := Nat.div_mul_le_self i st.pageSize
  have hdivlt : i < (i / st.pageSize) * st.pageSize + st.pageSize := by
    have h1 := Nat.div_add_mod i st.pageSize
    have h2 := Nat.mod_lt i hps
    calc i = st.pageSize * (i / st.pageSize) + i % st.pageSize := h1.symm
      _ < st.pageSize * (i / st.pageSize) + st.pageSize := by omega
      _ = (i / st.pageSize) * st.pageSize + st.pageSize := by ring
  unfold getRow
  dsimp only
  cases hg : getBlock st (i / st.pageSize) with
  | some blk =>
    have hbn := blockNumber_of_getBlock hent hg
    refine ⟨{ blk with lastAccessed := st.clock }, ?_, hbn, ?_, ?_, ?_⟩
    · show getBlock ((blockGetRow st blk i).2) (i / st.pageSize) = _
      have : getBlock ((blockGetRow st blk i).2) (i / st.pageSize)
          = getBlock (updateBlock st blk.blockNumber
              (fun b => { b with lastAccessed := st.clock })) (i / st.pageSize) := rfl
      rw [this, hbn, getBlock_updateBlock, hg]
      simp [hbn]
    · show ({ blk with lastAccessed := st.clock } : Block).blockNumber * st.pageSize ≤ i
      rw [show ({ blk with lastAccessed := st.clock } : Block).blockNumber
        = blk.blockNumber from rfl, hbn]
      exact hdivle
    · rw [show ({ blk with lastAccessed := st.clock } : Block).blockNumber
        = blk.blockNumber from rfl, hbn]
      exact hdivlt
    · show some ((blockGetRow st blk i).1) = _
      rfl
  | none =>
    refine ⟨{ newBlockFor st (i / st.pageSize)
        with lastAccessed := (createBlock st (i / st.pageSize)).2.clock }, ?_, rfl, ?_, ?_, ?_⟩
    · show getBlock ((blockGetRow (createBlock st (i / st.pageSize)).2
        (createBlock st (i / st.pageSize)).1 i).2) (i / st.pageSize) = _
      have heq : getBlock ((blockGetRow (createBlock st (i / st.pageSize)).2
          (createBlock st (i / st.pageSize)).1 i).2) (i / st.pageSize)
          = getBlock (updateBlock (createBlock st (i / st.pageSize)).2
              (i / st.pageSize)
              (fun b => { b with
                lastAccessed := (createBlock st (i / st.pageSize)).2.clock }))
              (i / st.pageSize) := rfl
      rw [heq, getBlock_updateBlock, getBlock_createBlock st (i / st.pageSize) hent hg]
      rfl
    · exact hdivle
    · exact hdivlt
    · show some ((blockGetRow (createBlock st (i / st.pageSize)).2
        (createBlock st (i / st.pageSize)).1 i).1) = _
      unfold blockGetRow
      dsimp only
      rw [show (createBlock st (i / st.pageSize)).1 = newBlockFor st (i / st.pageSize)
        from rfl]
      show some ((newBlockFor st (i / st.pageSize)).rows.getD _ RowVal.blank) = _
      rw [show (newBlockFor st (i / st.pageSize)).rows
        = List.replicate st.pageSize RowVal.blank from rfl]
      rw [getD_replicate_blank, getD_replicate_blank]

/-- Witness for C8 at the two-block state, reading row 3. -/
theorem claim_C8_witness :
    (EntOk exState ∧ 0 < exState.pageSize)
      ∧ (∃ blk, getBlock (getRow exState 3 false).2 (3 / exState.pageSize) = some blk
          ∧ blk.blockNumber = 3 / exState.pageSize
          ∧ blk.blockNumber * exState.pageSize ≤ 3
          ∧ 3 < blk.blockNumber * exState.pageSize + exState.pageSize
          ∧ (getRow exState 3 false).1
              = some (blk.rows.getD (3 - blk.blockNumber * exState.pageSize) RowVal.blank)) :=
  ⟨⟨by unfold EntOk; decide, by decide⟩,
    claim_C8 exState 3 (by unfold EntOk; decide) (by decide)⟩

/-- C10: the post-construct init hook itself calls `getRow(0)` with block
creation allowed, so block number 0 is resident immediately after
initialization and the block map is never empty. -/
theorem claim_C10 (st : CacheState) (hent : EntOk st) :
    (getBlock (initCache st) 0).isSome = true ∧ (initCache st).blocks ≠ [] := by
  have hz : (0 : Nat) / st.pageSize = 0 := Nat.zero_div _
  have hsome : ∃ blk', getBlock (initCache st) 0 = some blk' := by
    unfold initCache getRow
    dsimp only
    rw [hz]
    cases hg : getBlock st 0 with
    | some blk =>
      have hbn := blockNumber_of_getBlock hent hg
      refine ⟨{ blk with lastAccessed := st.clock }, ?_⟩
      show getBlock ((blockGetRow st blk 0).2) 0 = _
      have heq : getBlock ((blockGetRow st blk 0).2) 0
          = getBlock (updateBlock st blk.blockNumber
              (fun b => { b with lastAccessed := st.clock })) 0 := rfl
      rw [heq, hbn, getBlock_updateBlock, hg]
      simp [hbn]
    | none =>
      refine ⟨{ newBlockFor st 0 with lastAccessed := (createBlock st 0).2.clock }, ?_⟩
      show getBlock ((blockGetRow (createBlock st 0).2 (createBlock st 0).1 0).2) 0 = _
      have heq : getBlock ((blockGetRow (createBlock st 0).2 (createBlock st 0).1 0).2) 0
          = getBlock (updateBlock (createBlock st 0).2 0
              (fun b => { b with lastAccessed := (createBlock st 0).2.clock })) 0 := rfl
      rw [heq, getBlock_updateBlock, getBlock_createBlock st 0 hent hg]
      rfl
  obtain ⟨blk', hblk'⟩ := hsome
  exact ⟨by rw [hblk']; rfl, List.ne_nil_of_mem (getBlock_mem hblk')⟩

/-- Witness for C10 on a fresh empty cache. -/
def exStateEmpty : CacheState :=
  { pageSize := 2, maxBlocksInCache := none, blocks := [], virtualRowCount := 0,
    maxRowFound := false, active := true, clock := 0, nextId := 0,
    listeners := [], events := [] }

theorem claim_C10_witness :
    EntOk exStateEmpty
      ∧ ((getBlock (initCache exStateEmpty) 0).isSome = true
          ∧ (initCache exStateEmpty).blocks ≠ []) :=
  ⟨by unfold EntOk; decide, claim_C10 exStateEmpty (by unfold EntOk; decide)⟩

/-! ### Purge (C9) -/

theorem dispatchModelUpdated_blocks (s : CacheState) :
    (dispatchModelUpdated s).blocks = s.blocks := by
  unfold dispatchModelUpdated
  by_cases h : s.active <;> simp [h, emit]

theorem dispatchModelUpdated_events (s : CacheState) :
    (dispatchModelUpdated s).events
      = s.events ++ (if s.active then [Ev.modelUpdated] else []) := by
  unfold dispatchModelUpdated
  by_cases h : s.active <;> simp [h, emit]

theorem dispatchModelUpdated_active (s : CacheState) :
    (dispatchModelUpdated s).active = s.active := by
  unfold dispatchModelUpdated
  by_cases h : s.active <;> simp [h, emit]

theorem dispatchModelUpdated_pageSize (s : CacheState) :
    (dispatchModelUpdated s).pageSize = s.pageSize := by
  unfold dispatchModelUpdated
  by_cases h : s.active <;> simp [h, emit]

theorem purgeFold_blocks :
    ∀ (l : List (Nat × Block)) (s : CacheState),
      (∀ e ∈ s.blocks, e.fst ∈ l.map (fun x => x.snd.blockNumber)) →
      (l.foldl (fun s2 e => removeBlockFromCache s2 (some e.snd)) s).blocks = [] := by
  intro l
  induction l with
  | nil =>
    intro s h
    rw [List.foldl_nil]
    refine List.eq_nil_iff_forall_not_mem.2 ?_
    intro e he
    have := h e he
    simp at this
  | cons e0 rest ih =>
    intro s h
    rw [List.foldl_cons]
    apply ih
    intro e he
    have hmem : e ∈ s.blocks ∧ e.fst ≠ e0.snd.blockNumber := by
      have he' : e ∈ (s.blocks.filter (fun x => x.fst ≠ e0.snd.blockNumber)) := he
      have h1 := List.mem_of_mem_filter he'
      have h2 := (List.mem_filter.1 he').2
      simp only [decide_eq_true_eq] at h2
      exact ⟨h1, h2⟩
    have := h e hmem.1
    rw [List.map_cons] at this
    rcases List.mem_cons.1 this with h3 | h3
    · exact absurd h3 hmem.2
    · exact h3

theorem purgeFold_fields :
    ∀ (l : List (Nat × Block)) (s : CacheState),
      (l.foldl (fun s2 e => removeBlockFromCache s2 (some e.snd)) s).events = s.events
        ∧ (l.foldl (fun s2 e => removeBlockFromCache s2 (some e.snd)) s).active = s.active
        ∧ (l.foldl (fun s2 e => removeBlockFromCache s2 (some e.snd)) s).pageSize
            = s.pageSize := by
  intro l
  induction l with
  | nil => intro s; exact ⟨rfl, rfl, rfl⟩
  | cons e0 rest ih =>
    intro s
    rw [List.foldl_cons]
    obtain ⟨h1, h2, h3⟩ := ih (removeBlockFromCache s (some e0.snd))
    exact ⟨by rw [h1]; rfl, by rw [h2]; rfl, by rw [h3]; rfl⟩

theorem purgeCache_blocks (st : CacheState) (hent : EntOk st) :
    (purgeCache st).blocks = [] := by
  unfold purgeCache
  rw [dispatchModelUpdated_blocks]
  apply purgeFold_blocks
  intro e he
  unfold EntOk at hent
  rw [hent]
  exact List.mem_map_of_mem Prod.fst he

theorem purgeCache_events (st : CacheState) :
    (purgeCache st).events = st.events ++ (if st.active then [Ev.modelUpdated] else []) := by
  unfold purgeCache
  rw [dispatchModelUpdated_events, (purgeFold_fields st.blocks st).1,
    (purgeFold_fields st.blocks st).2.1]

theorem purgeCache_active (st : CacheState) : (purgeCache st).active = st.active := by
  unfold purgeCache
  rw [dispatchModelUpdated_active, (purgeFold_fields st.blocks st).2.1]

theorem purgeCache_pageSize (st : CacheState) : (purgeCache st).pageSize = st.pageSize := by
  unfold purgeCache
  rw [dispatchModelUpdated_pageSize, (purgeFold_fields st.blocks st).2.2]

/-- C9: `purgeCache` evicts every resident block and (on an active cache)
emits exactly one model-updated notification; a second call leaves the
same observable state — no resident blocks — and again emits exactly one
notification; and the purged cache still creates the owning block on the
next `getRow`. -/
theorem claim_C9 (st : CacheState) (hent : EntOk st) (ha : st.active = true) :
    (purgeCache st).blocks = []
      ∧ (purgeCache (purgeCache st)).blocks = []
      ∧ (purgeCache st).events = st.events ++ [Ev.modelUpdated]
      ∧ (purgeCache (purgeCache st)).events = (purgeCache st).events ++ [Ev.modelUpdated]
      ∧ ∀ i, (getBlock ((getRow (purgeCache st) i false).2)
            (i / (purgeCache st).pageSize)).isSome = true := by
  have hp1 : (purgeCache st).blocks = [] := purgeCache_blocks st hent
  have hent1 : EntOk (purgeCache st) := by
    unfold EntOk
    rw [hp1]
    rfl
  have ha1 : (purgeCache st).active = true := by rw [purgeCache_active, ha]
  refine ⟨hp1, purgeCache_blocks (purgeCache st) hent1, ?_, ?_, ?_⟩
  · rw [purgeCache_events, ha]
    rfl
  · rw [purgeCache_events (purgeCache st), ha1]
    rfl
  · intro i
    have hnone : getBlock (purgeCache st) (i / (purgeCache st).pageSize) = none := by
      unfold getBlock
      rw [hp1]
      rfl
    unfold getRow
    dsimp only
    rw [hnone]
    dsimp only
    show (getBlock ((blockGetRow (createBlock (purgeCache st)
      (i / (purgeCache st).pageSize)).2 (createBlock (purgeCache st)
      (i / (purgeCache st).pageSize)).1 i).2) (i / (purgeCache st).pageSize)).isSome = true
    have heq : getBlock ((blockGetRow (createBlock (purgeCache st)
        (i / (purgeCache st).pageSize)).2 (createBlock (purgeCache st)
        (i / (purgeCache st).pageSize)).1 i).2) (i / (purgeCache st).pageSize)
        = getBlock (updateBlock (createBlock (purgeCache st)
            (i / (purgeCache st).pageSize)).2 (i / (purgeCache st).pageSize)
            (fun b => { b with lastAccessed := (createBlock (purgeCache st)
              (i / (purgeCache st).pageSize)).2.clock })) (i / (purgeCache st).pageSize) :=
      rfl
    rw [heq, getBlock_updateBlock,
      getBlock_createBlock (purgeCache st) (i / (purgeCache st).pageSize) hent1 hnone]
    rfl

/-- Witness for C9 at the two-block active state. -/
theorem claim_C9_witness :
    (EntOk exState ∧ exState.active = true)
      ∧ ((purgeCache exState).blocks = []
          ∧ (purgeCache (purgeCache exState)).blocks = []
          ∧ (purgeCache exState).events = exState.events ++ [Ev.modelUpdated]
          ∧ (purgeCache (purgeCache exState)).events
              = (purgeCache exState).events ++ [Ev.modelUpdated]
          ∧ ∀ i, (getBlock ((getRow (purgeCache exState) i false).2)
                (i / (purgeCache exState).pageSize)).isSome = true) :=
  ⟨⟨by unfold EntOk; decide, by decide⟩,
    claim_C9 exState (by unfold EntOk; decide) (by decide)⟩

end AgInfinite
